import Mathlib

/-!
Verification of the response-parsing and validation pipeline of
`src/app.py` (Developer-Project-Validator).

The embedding models Python values (`PyVal`), Python dicts as ordered
association lists (`PyDict`), the JSON decoding done by `json.loads`,
the hand-compiled regular-expression searches that `_salvage_json_like`
and `_extract_json` perform, and the four functions under scrutiny:
`_extract_json`, `_parse_model_json`, `_salvage_json_like`,
`_validate_response`, plus the orchestrator `analyze_project_idea`.

External library functions that are not part of the repository are
modelled as explicit parameters: `repair_json` (optional dependency,
`None` when absent) and `ast.literal_eval` are oracles of type
`String → Except Unit PyVal`, where an `error` result stands for the
function raising one of the exceptions the call sites catch.
-/

deriving instance DecidableEq for Except

namespace DPV

/-- Python values, as producible by `json.loads`, `ast.literal_eval`
and the pipeline itself.  Floats are carried by their lexeme: no claim
depends on float arithmetic, only on a float being some value. -/
inductive PyVal where
  | str (s : String)
  | int (n : Int)
  | float (lit : String)
  | bool (b : Bool)
  | none
  | list (xs : List PyVal)
  | dict (entries : List (String × PyVal))
  deriving Repr

/-- A Python dict, as an insertion-ordered association list. -/
abbrev PyDict := List (String × PyVal)

mutual

/-- Boolean equality on `PyVal` (structural). -/
def PyVal.beq : PyVal → PyVal → Bool
  | .str a, .str b => a = b
  | .int a, .int b => a = b
  | .float a, .float b => a = b
  | .bool a, .bool b => a = b
  | .none, .none => true
  | .list a, .list b => PyVal.beqList a b
  | .dict a, .dict b => PyVal.beqEntries a b
  | _, _ => false

def PyVal.beqList : List PyVal → List PyVal → Bool
  | [], [] => true
  | a :: as, b :: bs => PyVal.beq a b && PyVal.beqList as bs
  | _, _ => false

def PyVal.beqEntries : List (String × PyVal) → List (String × PyVal) → Bool
  | [], [] => true
  | (k, a) :: as, (l, b) :: bs => k = l && PyVal.beq a b && PyVal.beqEntries as bs
  | _, _ => false

end

mutual

theorem PyVal.beq_iff : ∀ a b : PyVal, PyVal.beq a b = true ↔ a = b
  | .str a, .str b => by simp [PyVal.beq]
  | .str _, .int _ => by simp [PyVal.beq]
  | .str _, .float _ => by simp [PyVal.beq]
  | .str _, .bool _ => by simp [PyVal.beq]
  | .str _, .none => by simp [PyVal.beq]
  | .str _, .list _ => by simp [PyVal.beq]
  | .str _, .dict _ => by simp [PyVal.beq]
  | .int _, .str _ => by simp [PyVal.beq]
  | .int a, .int b => by simp [PyVal.beq]
  | .int _, .float _ => by simp [PyVal.beq]
  | .int _, .bool _ => by simp [PyVal.beq]
  | .int _, .none => by simp [PyVal.beq]
  | .int _, .list _ => by simp [PyVal.beq]
  | .int _, .dict _ => by simp [PyVal.beq]
  | .float _, .str _ => by simp [PyVal.beq]
  | .float _, .int _ => by simp [PyVal.beq]
  | .float a, .float b => by simp [PyVal.beq]
  | .float _, .bool _ => by simp [PyVal.beq]
  | .float _, .none => by simp [PyVal.beq]
  | .float _, .list _ => by simp [PyVal.beq]
  | .float _, .dict _ => by simp [PyVal.beq]
  | .bool _, .str _ => by simp [PyVal.beq]
  | .bool _, .int _ => by simp [PyVal.beq]
  | .bool _, .float _ => by simp [PyVal.beq]
  | .bool a, .bool b => by simp [PyVal.beq]
  | .bool _, .none => by simp [PyVal.beq]
  | .bool _, .list _ => by simp [PyVal.beq]
  | .bool _, .dict _ => by simp [PyVal.beq]
  | .none, .str _ => by simp [PyVal.beq]
  | .none, .int _ => by simp [PyVal.beq]
  | .none, .float _ => by simp [PyVal.beq]
  | .none, .bool _ => by simp [PyVal.beq]
  | .none, .none => by simp [PyVal.beq]
  | .none, .list _ => by simp [PyVal.beq]
  | .none, .dict _ => by simp [PyVal.beq]
  | .list _, .str _ => by simp [PyVal.beq]
  | .list _, .int _ => by simp [PyVal.beq]
  | .list _, .float _ => by simp [PyVal.beq]
  | .list _, .bool _ => by simp [PyVal.beq]
  | .list _, .none => by simp [PyVal.beq]
  | .list a, .list b => by
      simp only [PyVal.beq, PyVal.list.injEq]
      exact PyVal.beqList_iff a b
  | .list _, .dict _ => by simp [PyVal.beq]
  | .dict _, .str _ => by simp [PyVal.beq]
  | .dict _, .int _ => by simp [PyVal.beq]
  | .dict _, .float _ => by simp [PyVal.beq]
  | .dict _, .bool _ => by simp [PyVal.beq]
  | .dict _, .none => by simp [PyVal.beq]
  | .dict _, .list _ => by simp [PyVal.beq]
  | .dict a, .dict b => by
      simp only [PyVal.beq, PyVal.dict.injEq]
      exact PyVal.beqEntries_iff a b

theorem PyVal.beqList_iff : ∀ a b : List PyVal, PyVal.beqList a b = true ↔ a = b
  | [], [] => by simp [PyVal.beqList]
  | [], _ :: _ => by simp [PyVal.beqList]
  | _ :: _, [] => by simp [PyVal.beqList]
  | a :: as, b :: bs => by
      simp only [PyVal.beqList, Bool.and_eq_true, List.cons.injEq]
      exact and_congr (PyVal.beq_iff a b) (PyVal.beqList_iff as bs)

theorem PyVal.beqEntries_iff :
    ∀ a b : List (String × PyVal), PyVal.beqEntries a b = true ↔ a = b
  | [], [] => by simp [PyVal.beqEntries]
  | [], _ :: _ => by simp [PyVal.beqEntries]
  | _ :: _, [] => by simp [PyVal.beqEntries]
  | (k, a) :: as, (l, b) :: bs => by
      simp only [PyVal.beqEntries, Bool.and_eq_true, List.cons.injEq, Prod.mk.injEq,
        decide_eq_true_eq, and_assoc]
      exact and_congr Iff.rfl (and_congr (PyVal.beq_iff a b) (PyVal.beqEntries_iff as bs))

end

instance : DecidableEq PyVal := fun a b =>
  decidable_of_iff (PyVal.beq a b = true) (PyVal.beq_iff a b)

/-- `key in payload` for a Python dict. -/
def PyDict.contains (d : PyDict) (k : String) : Bool :=
  d.any (fun kv => kv.1 = k)

/-- `payload.get(key)` / `payload[key]` with an explicit default:
the value at the key (first occurrence), or the default. -/
def PyDict.getD (d : PyDict) (k : String) (v₀ : PyVal) : PyVal :=
  match d.find? (fun kv => kv.1 = k) with
  | some kv => kv.2
  | Option.none => v₀

/-- `payload[key] = v`: update the value in place if the key exists
(keeping its position), otherwise append the new key at the end —
exactly the insertion-order semantics of a Python dict assignment. -/
def PyDict.set : PyDict → String → PyVal → PyDict
  | [], k, v => [(k, v)]
  | (k', v') :: rest, k, v =>
      if k' = k then (k, v) :: rest else (k', v') :: PyDict.set rest k v

/-! ### String utilities shared by the pipeline -/

/-- The ASCII whitespace characters of Python's `str.strip()`
(space, tab, newline, carriage return, vertical tab, form feed).
Unicode whitespace is not modelled; no input of the development
uses it. -/
def pyIsSpace (c : Char) : Bool :=
  c = ' ' || c = '\t' || c = '\n' || c = '\r' || c = '\x0b' || c = '\x0c'

/-- The characters matched by the regex class `\s` on ASCII text
(same set as `pyIsSpace`; Unicode whitespace is not modelled). -/
def reIsSpace (c : Char) : Bool := pyIsSpace c

/-- JSON whitespace as skipped by `json.loads`. -/
def jsonIsWs (c : Char) : Bool :=
  c = ' ' || c = '\t' || c = '\n' || c = '\r'

/-- Drop from both ends of a character list every character satisfying
`p` — the common core of Python's `strip`/`rstrip`/`lstrip`. -/
def stripWhile (p : Char → Bool) (cs : List Char) : List Char :=
  ((cs.dropWhile p).reverse.dropWhile p).reverse

/-- Drop from the right end every character satisfying `p`
(Python's `rstrip`). -/
def rstripWhile (p : Char → Bool) (cs : List Char) : List Char :=
  (cs.reverse.dropWhile p).reverse

/-- Python's `str.strip()` (no arguments): remove surrounding
whitespace. -/
def pyStrip (s : String) : String :=
  String.mk (stripWhile pyIsSpace s.data)

/-- Python's `str.strip(chars)`: remove the given characters from both
ends. -/
def pyStripSet (chars : List Char) (s : String) : String :=
  String.mk (stripWhile (fun c => chars.contains c) s.data)

/-- Python's `str.rstrip(chars)`. -/
def pyRStripSet (chars : List Char) (s : String) : String :=
  String.mk (rstripWhile (fun c => chars.contains c) s.data)

/-- The substring `s[a:b]` of Python (clamped, as Python slices are). -/
def pySlice (s : String) (a b : Nat) : String :=
  String.mk ((s.data.drop a).take (b - a))

/-- `s[:n]` of Python. -/
def pyTake (s : String) (n : Nat) : String :=
  String.mk (s.data.take n)

/-- Python's `str.replace(pat, rep)` with a non-empty pattern: scan
left to right; at each position, if the pattern starts there emit the
replacement and skip the pattern, otherwise emit the character and
advance by one.  `fuel` bounds the scan (callers pass the length). -/
def replaceAllAux (pat rep : List Char) (fuel : Nat) (cs : List Char) : List Char :=
  match fuel, cs with
  | 0, cs => cs
  | _, [] => []
  | fuel + 1, c :: rest =>
      if pat.isPrefixOf (c :: rest) then
        rep ++ replaceAllAux pat rep fuel ((c :: rest).drop pat.length)
      else
        c :: replaceAllAux pat rep fuel rest

/-- Python's `str.replace(pat, rep)` (non-empty `pat`). -/
def pyReplace (s pat rep : String) : String :=
  String.mk (replaceAllAux pat.data rep.data s.data.length s.data)

/-! ### `json.loads`

A recursive-descent parser for the JSON grammar accepted by Python's
`json.loads` in its default (strict) configuration: the six value
forms plus the `NaN`/`Infinity`/`-Infinity` extensions; strings
reject unescaped control characters; duplicate object keys overwrite
the earlier value in place (as consecutive dict assignments do).
`\uXXXX` escapes map to the corresponding code point when it is a
scalar value (surrogate-pair combination is not modelled; no input of
the development uses it). -/

def hexDigitVal (c : Char) : Option Nat :=
  if '0' ≤ c ∧ c ≤ '9' then some (c.toNat - '0'.toNat)
  else if 'a' ≤ c ∧ c ≤ 'f' then some (c.toNat - 'a'.toNat + 10)
  else if 'A' ≤ c ∧ c ≤ 'F' then some (c.toNat - 'A'.toNat + 10)
  else none

/-- Parse the body of a JSON string (the opening quote already
consumed), returning the decoded string and the remaining text. -/
def parseJString (acc : List Char) : List Char → Option (String × List Char)
  | [] => Option.none
  | '"' :: rest => some (String.mk acc.reverse, rest)
  | '\\' :: rest =>
      match rest with
      | [] => Option.none
      | e :: rest' =>
          match e with
          | '"' => parseJString ('"' :: acc) rest'
          | '\\' => parseJString ('\\' :: acc) rest'
          | '/' => parseJString ('/' :: acc) rest'
          | 'b' => parseJString ('\x08' :: acc) rest'
          | 'f' => parseJString ('\x0c' :: acc) rest'
          | 'n' => parseJString ('\n' :: acc) rest'
          | 'r' => parseJString ('\r' :: acc) rest'
          | 't' => parseJString ('\t' :: acc) rest'
          | 'u' =>
              match rest' with
              | a :: b :: c :: d :: rest'' =>
                  match hexDigitVal a, hexDigitVal b, hexDigitVal c, hexDigitVal d with
                  | some ha, some hb, some hc, some hd =>
                      parseJString (Char.ofNat (((ha * 16 + hb) * 16 + hc) * 16 + hd) :: acc) rest''
                  | _, _, _, _ => Option.none
              | _ => Option.none
          | _ => Option.none
  | c :: rest =>
      if c.toNat < 0x20 then Option.none else parseJString (c :: acc) rest

def isDigit (c : Char) : Bool := '0' ≤ c && c ≤ '9'

def digitsToNat (ds : List Char) : Nat :=
  ds.foldl (fun n c => n * 10 + (c.toNat - '0'.toNat)) 0

/-- Parse a JSON number at the head of the text, following the number
regex of Python's scanner with maximal munch: optional minus, an
integer part (`0` alone, or a nonzero digit followed by digits), then
a fraction only when `.` is followed by at least one digit, then an
exponent only when `e`/`E` (with optional sign) is followed by at
least one digit — an incomplete fraction or exponent is simply left
unconsumed.  Yields an `int` when neither fraction nor exponent was
consumed, otherwise a `float` carrying the lexeme. -/
def parseJNumber (cs : List Char) : Option (PyVal × List Char) :=
  let (sign, cs₁) := match cs with
    | '-' :: rest => (true, rest)
    | _ => (false, cs)
  let (intPart, afterInt) := match cs₁ with
    | '0' :: rest => (['0'], rest)
    | _ => (cs₁.takeWhile isDigit, cs₁.dropWhile isDigit)
  if intPart = [] then Option.none
  else
    let (fracPart, afterFrac) := match afterInt with
      | '.' :: rest =>
          let ds := rest.takeWhile isDigit
          if ds = [] then (([] : List Char), afterInt)
          else ('.' :: ds, rest.dropWhile isDigit)
      | _ => ([], afterInt)
    let (expPart, afterExp) := match afterFrac with
      | e :: rest =>
          if e = 'e' ∨ e = 'E' then
            let (sgn, rest') := match rest with
              | '+' :: r => ((['+'] : List Char), r)
              | '-' :: r => (['-'], r)
              | _ => ([], rest)
            let ds := rest'.takeWhile isDigit
            if ds = [] then (([] : List Char), afterFrac)
            else (e :: (sgn ++ ds), rest'.dropWhile isDigit)
          else ([], afterFrac)
      | _ => ([], afterFrac)
    if fracPart = [] ∧ expPart = [] then
      let n : Int := Int.ofNat (digitsToNat intPart)
      some (PyVal.int (if sign then -n else n), afterInt)
    else
      let lex := (if sign then ['-'] else []) ++ intPart ++ fracPart ++ expPart
      some (PyVal.float (String.mk lex), afterExp)

def jsonSkip (cs : List Char) : List Char := cs.dropWhile jsonIsWs

mutual

/-- Parse one JSON value at the head of the text (no leading
whitespace).  `fuel` strictly exceeds the number of container
openings the text can contain; callers pass the text length plus
one. -/
def parseJValue (fuel : Nat) (cs : List Char) : Option (PyVal × List Char) :=
  match fuel with
  | 0 => Option.none
  | fuel + 1 =>
    match cs with
    | '"' :: rest =>
        match parseJString [] rest with
        | some (s, rest') => some (PyVal.str s, rest')
        | Option.none => Option.none
    | '{' :: rest =>
        match jsonSkip rest with
        | '}' :: rest' => some (PyVal.dict [], rest')
        | cs' =>
            match parseJMembers fuel cs' [] with
            | some (d, rest') => some (PyVal.dict d, rest')
            | Option.none => Option.none
    | '[' :: rest =>
        match jsonSkip rest with
        | ']' :: rest' => some (PyVal.list [], rest')
        | cs' =>
            match parseJItems fuel cs' [] with
            | some (xs, rest') => some (PyVal.list xs, rest')
            | Option.none => Option.none
    | _ =>
        if ['t', 'r', 'u', 'e'].isPrefixOf cs then some (PyVal.bool true, cs.drop 4)
        else if ['f', 'a', 'l', 's', 'e'].isPrefixOf cs then some (PyVal.bool false, cs.drop 5)
        else if ['n', 'u', 'l', 'l'].isPrefixOf cs then some (PyVal.none, cs.drop 4)
        else if ['N', 'a', 'N'].isPrefixOf cs then some (PyVal.float "NaN", cs.drop 3)
        else if ['I', 'n', 'f', 'i', 'n', 'i', 't', 'y'].isPrefixOf cs then
          some (PyVal.float "Infinity", cs.drop 8)
        else if ['-', 'I', 'n', 'f', 'i', 'n', 'i', 't', 'y'].isPrefixOf cs then
          some (PyVal.float "-Infinity", cs.drop 9)
        else parseJNumber cs

/-- Parse the members of an object, positioned at a key string;
duplicate keys overwrite in place via `PyDict.set`. -/
def parseJMembers (fuel : Nat) (cs : List Char) (acc : PyDict) : Option (PyDict × List Char) :=
  match fuel with
  | 0 => Option.none
  | fuel + 1 =>
    match cs with
    | '"' :: rest =>
        match parseJString [] rest with
        | some (k, rest₁) =>
            match jsonSkip rest₁ with
            | ':' :: rest₂ =>
                match parseJValue fuel (jsonSkip rest₂) with
                | some (v, rest₃) =>
                    let acc' := PyDict.set acc k v
                    match jsonSkip rest₃ with
                    | ',' :: rest₄ => parseJMembers fuel (jsonSkip rest₄) acc'
                    | '}' :: rest₄ => some (acc', rest₄)
                    | _ => Option.none
                | Option.none => Option.none
            | _ => Option.none
        | Option.none => Option.none
    | _ => Option.none

/-- Parse the items of an array, positioned at a value. -/
def parseJItems (fuel : Nat) (cs : List Char) (acc : List PyVal) : Option (List PyVal × List Char) :=
  match fuel with
  | 0 => Option.none
  | fuel + 1 =>
    match parseJValue fuel cs with
    | some (v, rest) =>
        match jsonSkip rest with
        | ',' :: rest' => parseJItems fuel (jsonSkip rest') (acc ++ [v])
        | ']' :: rest' => some (acc ++ [v], rest')
        | _ => Option.none
    | Option.none => Option.none

end

/-- Model of Python's `json.loads`: parse the whole string as one JSON
value; leading and trailing JSON whitespace is allowed; anything left
over is a `JSONDecodeError`, modelled as `Except.error`. -/
def jsonLoads (s : String) : Except Unit PyVal :=
  match parseJValue (s.data.length + 1) (jsonSkip s.data) with
  | some (v, rest) => if jsonSkip rest = [] then .ok v else .error ()
  | Option.none => .error ()

/-! ### Python `str()` / `repr()` and truthiness -/

def hexChar (n : Nat) : Char :=
  if n < 10 then Char.ofNat ('0'.toNat + n) else Char.ofNat ('a'.toNat + (n - 10))

/-- Python's `repr` of a string: single quotes unless the string
contains a single quote and no double quote; escapes the backslash,
the chosen quote, `\n`, `\r`, `\t`, and other control characters as
`\xHH`.  (Non-printable non-ASCII is not modelled; no input of the
development uses it.) -/
def pyReprStr (s : String) : String :=
  let useDouble := s.data.contains '\'' && !(s.data.contains '"')
  let q := if useDouble then '"' else '\''
  let esc : Char → List Char := fun c =>
    if c = '\\' then ['\\', '\\']
    else if c = q then ['\\', q]
    else if c = '\n' then ['\\', 'n']
    else if c = '\r' then ['\\', 'r']
    else if c = '\t' then ['\\', 't']
    else if c.toNat < 0x20 ∨ c.toNat = 0x7f then
      ['\\', 'x', hexChar (c.toNat / 16), hexChar (c.toNat % 16)]
    else [c]
  String.mk (q :: s.data.foldr (fun c acc => esc c ++ acc) [q])

mutual

/-- Python's `repr` on our values.  Floats render as their lexeme (a
model: Python would normalise the spelling; no claim evaluates the
repr of a float). -/
def pyRepr : PyVal → String
  | .str s => pyReprStr s
  | .int n => toString n
  | .float lit => lit
  | .bool true => "True"
  | .bool false => "False"
  | .none => "None"
  | .list xs => "[" ++ pyReprList xs ++ "]"
  | .dict es => "\x7b" ++ pyReprEntries es ++ "\x7d"

def pyReprList : List PyVal → String
  | [] => ""
  | [x] => pyRepr x
  | x :: y :: xs => pyRepr x ++ ", " ++ pyReprList (y :: xs)

def pyReprEntries : List (String × PyVal) → String
  | [] => ""
  | [(k, v)] => pyReprStr k ++ ": " ++ pyRepr v
  | (k, v) :: e :: es => pyReprStr k ++ ": " ++ pyRepr v ++ ", " ++ pyReprEntries (e :: es)

end

/-- Python's `str()`: the identity on strings, `repr` otherwise
(which coincides with `str` for ints, bools and `None`). -/
def pyStr : PyVal → String
  | .str s => s
  | v => pyRepr v

/-- Zero test for a float lexeme: some digit is present and every
digit of the mantissa is `0` (`NaN` and `Infinity` have no digits and
are truthy). -/
def floatLexIsZero (lit : String) : Bool :=
  let m := lit.data.takeWhile (fun c => c ≠ 'e' ∧ c ≠ 'E')
  let ds := m.filter isDigit
  !(ds = []) && ds.all (· = '0')

/-- Python truthiness (`if value:`). -/
def pyTruthy : PyVal → Bool
  | .str s => s ≠ ""
  | .int n => n ≠ 0
  | .float lit => !(floatLexIsZero lit)
  | .bool b => b
  | .none => false
  | .list xs => xs ≠ []
  | .dict es => es ≠ []

/-! ### Hand-compiled regular-expression searches

The searches of `_salvage_json_like` and `_extract_json` are compiled
to explicit position scans.  `re.search` returns the leftmost match,
so each search is a first-position-satisfying-the-match scan; where a
`\s*` is followed by a character that is not whitespace, the star is
forced to consume exactly the whitespace run, which the compiled
predicates exploit. -/

/-- Whitespace-run length of the text from position `i`. -/
def wsRunAt (cs : List Char) (i : Nat) : Nat :=
  ((cs.drop i).takeWhile reIsSpace).length

/-- Does the marker regex `"<key>"\s*:` match at position `i`?  The
`\s*` is followed by the literal `:`, so it must consume the entire
whitespace run. -/
def markerMatchAt (key : String) (cs : List Char) (i : Nat) : Bool :=
  let tok := '"' :: (key.data ++ ['"'])
  tok.isPrefixOf (cs.drop i) &&
    match (cs.drop (i + tok.length)).dropWhile reIsSpace with
    | ':' :: _ => true
    | _ => false

/-- End position (one past the `:`) of a marker match starting at
`i` — the `match.end()` the salvager uses. -/
def markerEndAt (key : String) (cs : List Char) (i : Nat) : Nat :=
  let tokLen := key.data.length + 2
  i + tokLen + wsRunAt cs (i + tokLen) + 1

/-- First position `i` with `start ≤ i < start + fuel` satisfying
`p` — the leftmost-match scan of `re.search`. -/
def findFirst (p : Nat → Bool) : Nat → Nat → Option Nat
  | 0, _ => Option.none
  | fuel + 1, i => if p i then some i else findFirst p fuel (i + 1)

/-- `re.search(r'"key"\s*:', text)`: start of the leftmost marker
match. -/
def markerSearch (key : String) (cs : List Char) : Option Nat :=
  findFirst (fun i => markerMatchAt key cs i) (cs.length + 1) 0

/-- Does the boundary regex `,?\s*"<key>"\s*:` match at position `i`?
Either branch of the optional comma may succeed; in each, the `\s*`
before the quote is forced to the whole whitespace run. -/
def boundaryMatchAt (key : String) (cs : List Char) (i : Nat) : Bool :=
  (decide (cs[i]? = some ',') && markerMatchAt key cs (i + 1 + wsRunAt cs (i + 1)))
  || markerMatchAt key cs (i + wsRunAt cs i)

/-- `re.search(r',?\s*"key"\s*:', rest)`: start of the leftmost
boundary match — the `next_match.start()` the salvager uses. -/
def boundarySearch (key : String) (cs : List Char) : Option Nat :=
  findFirst (fun i => boundaryMatchAt key cs i) (cs.length + 1) 0

/-- `re.search(r"\[(.*?)]", raw, re.DOTALL)`: the region between the
first `[` and the first `]` after it.  If the first `[` has no `]`
after it, no later `[` has one either, so the whole search fails. -/
def arrayRegion (cs : List Char) : Option (List Char) :=
  match cs.findIdx? (fun c => c = '[') with
  | Option.none => Option.none
  | some i =>
      let rest := cs.drop (i + 1)
      match rest.findIdx? (fun c => c = ']') with
      | Option.none => Option.none
      | some j => some (rest.take j)

/-- `re.findall(r'"([^"\n]+)"', inside)`: scan left to right; a match
is a quote, a non-empty run free of quotes and newlines, and a closing
quote; scanning resumes after each match, or one character further on
failure.  `fuel` bounds the scan (callers pass the length). -/
def findQuotedAux (fuel : Nat) (cs : List Char) : List String :=
  match fuel, cs with
  | 0, _ => []
  | _, [] => []
  | fuel + 1, '"' :: rest =>
      let run := rest.takeWhile (fun c => c ≠ '"' ∧ c ≠ '\n')
      match rest.dropWhile (fun c => c ≠ '"' ∧ c ≠ '\n') with
      | '"' :: rest' =>
          if run = [] then findQuotedAux fuel rest
          else String.mk run :: findQuotedAux fuel rest'
      | _ => findQuotedAux fuel rest
  | fuel + 1, _ :: rest => findQuotedAux fuel rest

def findQuoted (cs : List Char) : List String :=
  findQuotedAux cs.length cs

/-- `re.split(r"[\n;]+", inside)`: split on maximal runs of newlines
and semicolons, keeping empty pieces at the ends. -/
def splitRunsAux (p : Char → Bool) (fuel : Nat) (acc : List Char) (cs : List Char) :
    List (List Char) :=
  match fuel, cs with
  | 0, _ => [acc.reverse]
  | _, [] => [acc.reverse]
  | fuel + 1, c :: rest =>
      if p c then acc.reverse :: splitRunsAux p fuel [] (rest.dropWhile p)
      else splitRunsAux p fuel (c :: acc) rest

def splitRuns (p : Char → Bool) (cs : List Char) : List (List Char) :=
  splitRunsAux p cs.length [] cs

/-! ### The Salvager: `_salvage_json_like` -/

/-- `EXPECTED_KEYS` of `src/app.py`, in declaration order. -/
def EXPECTED_KEYS : List String :=
  ["market_competition", "monetization_potential", "target_users",
   "feature_suggestions", "mvp_plan", "risk_score", "summary"]

/-- The two list fields (`{"feature_suggestions", "mvp_plan"}`). -/
def listFieldKeys : List String := ["feature_suggestions", "mvp_plan"]

/-- The span the salvager computes for the key at index `idx`: the
value starts right after the key's marker match; it ends at the start
of the leftmost boundary match of the first later key (in declaration
order) that has one in the remaining text, else at end of text.
`none` when the key's marker is absent. -/
def salvageSpanFor (cs : List Char) (idx : Nat) : Option (Nat × Nat) :=
  let key := EXPECTED_KEYS.getD idx ""
  match markerSearch key cs with
  | Option.none => Option.none
  | some m =>
      let start := markerEndAt key cs m
      let stop :=
        match (EXPECTED_KEYS.drop (idx + 1)).findSome?
            (fun k => boundarySearch k (cs.drop start)) with
        | some q => start + q
        | Option.none => cs.length
      some (start, stop)

/-- The trimmed raw value for the key at index `idx`:
`text[start:end].strip().rstrip(",").strip()`. -/
def salvageRawFor (cs : List Char) (idx : Nat) : Option String :=
  match salvageSpanFor cs idx with
  | Option.none => Option.none
  | some (s, e) =>
      some (pyStrip (pyRStripSet [','] (pyStrip (String.mk ((cs.drop s).take (e - s))))))

/-- The items extracted for a list field from its trimmed raw value:
quoted substrings inside the first bracketed region (or the whole
value when there is none); falling back to splitting on
newline/semicolon runs and stripping list markers, dropping empty
pieces. -/
def salvageListItems (raw : String) : List String :=
  let inside := match arrayRegion raw.data with
    | some g => g
    | Option.none => raw.data
  let items := findQuoted inside
  if items = [] then
    (splitRuns (fun c => c = '\n' || c = ';') inside).filterMap (fun piece =>
      let t := stripWhile (fun c => [' ', '-', '•', '\t', '\r', '\n'].contains c) piece
      if t = [] then Option.none else some (String.mk t))
  else items

/-- The capture of `re.search(r'^"(.*)"$', raw, re.DOTALL)`: the text
must start with a quote; the greedy group then runs to a closing
quote at the very end, or — because `$` also matches just before one
trailing newline — to a quote right before a final newline. -/
def quotedCore (ds : List Char) : Option (List Char) :=
  match ds with
  | [] => Option.none
  | c :: rest =>
      if c = '"' then
        if rest ≠ [] ∧ rest.getLast? = some '"' then some rest.dropLast
        else if rest.length ≥ 2 ∧ (rest.drop (rest.length - 2)) = ['"', '\n'] then
          some (rest.take (rest.length - 2))
        else Option.none
      else Option.none

/-- The value computed for a text field from its trimmed raw value:
the regex above unwraps one surrounding pair of quotes, then
`.replace('\\"', '"').strip()` is applied in either case. -/
def salvageTextValue (raw : String) : String :=
  let val := match quotedCore raw.data with
    | some g => String.mk g
    | Option.none => raw
  pyStrip (pyReplace val "\\\"" "\"")

/-- The value the salvager stores for the key at index `idx`, if any:
`none` when the marker is absent (`continue`) or the trimmed raw value
is empty (`continue`); otherwise the list-field item extraction or
text-field unwrapping of the raw value. -/
def salvageValueFor (cs : List Char) (idx : Nat) : Option PyVal :=
  match salvageRawFor cs idx with
  | Option.none => Option.none
  | some raw =>
      if raw = "" then Option.none
      else if listFieldKeys.contains (EXPECTED_KEYS.getD idx "") then
        some (PyVal.list ((salvageListItems raw).map PyVal.str))
      else
        some (PyVal.str (salvageTextValue raw))

/-- `_salvage_json_like` of `src/app.py`: best-effort field-by-field
scraping; total by construction. -/
def salvageJsonLike (text : String) : PyDict :=
  if text = "" then []
  else
    (List.range EXPECTED_KEYS.length).foldl (fun result idx =>
      match salvageValueFor text.data idx with
      | Option.none => result
      | some v => PyDict.set result (EXPECTED_KEYS.getD idx "") v) []

/-! ### The fenced-block search of `_extract_json`

`re.search(r"```(?:json)?\s*([\s\S]*?)\s*```", text, re.IGNORECASE)`,
compiled to an explicit backtracking scan.  The engine tries start
positions left to right; at a position it tries the `(?:json)?`
branch with the literal first, then each greedy `\s*` length from
longest to shortest, then each lazy capture length from shortest to
longest; the trailing `\s*```  succeeds when the closing fence
appears within the whitespace run after the capture. -/

def ticks : List Char := ['`', '`', '`']

/-- The capture of a fence match anchored at position `l`, following
the backtracking order described above; `none` when no combination
matches at `l`. -/
def fenceCaptureAt (cs : List Char) (l : Nat) : Option String :=
  if ticks.isPrefixOf (cs.drop l) then
    let n := cs.length
    let closes : Nat → Bool := fun pos =>
      (List.range (wsRunAt cs pos + 1)).any (fun j => ticks.isPrefixOf (cs.drop (pos + j)))
    let tryFrom : Nat → Option String := fun p1 =>
      ((List.range (wsRunAt cs p1 + 1)).reverse).findSome? (fun w =>
        let p2 := p1 + w
        (List.range (n + 1 - p2)).findSome? (fun g =>
          if closes (p2 + g) then some (String.mk ((cs.drop p2).take g)) else Option.none))
    let jsonTagged : Bool :=
      ((cs.drop (l + 3)).take 4).map Char.toLower = ['j', 's', 'o', 'n']
    match (if jsonTagged then tryFrom (l + 7) else Option.none) with
    | some g => some g
    | Option.none => tryFrom (l + 3)
  else Option.none

/-- The leftmost fence match's capture. -/
def fenceSearch (cs : List Char) : Option String :=
  (List.range (cs.length + 1)).findSome? (fun l => fenceCaptureAt cs l)

/-! ### The Extractor: `_extract_json` -/

/-- The balanced-brace scan of `_extract_json`: iterate from the
first `{` tracking nesting depth; the matching `}` at depth zero is
the end.  The depth is an `Int` as in the source, though the scan
always starts on a `{` so it stays positive until the break. -/
def braceEnd : List Char → Nat → Int → Option Nat
  | [], _, _ => Option.none
  | c :: rest, i, depth =>
      if c = '{' then braceEnd rest (i + 1) (depth + 1)
      else if c = '}' then
        if depth = 1 then some i else braceEnd rest (i + 1) (depth - 1)
      else braceEnd rest (i + 1) depth

/-- The `repair_json` block shared by `_extract_json` and
`_parse_model_json` (lines 57–65 and 117–125 are the same code):
call the optional repair function; accept a dict; JSON-parse a
string result and accept whatever it parses to; any exception or
other result type is swallowed. -/
def repairAttempt (repair : Option (String → Except Unit PyVal)) (s : String) :
    Option PyVal :=
  match repair with
  | Option.none => Option.none
  | some f =>
      match f s with
      | .error _ => Option.none
      | .ok (PyVal.dict d) => some (PyVal.dict d)
      | .ok (PyVal.str r) => (jsonLoads r).toOption
      | .ok _ => Option.none

/-- The diagnostic `_extract_json` raises when every strategy fails:
a `ValueError` whose message embeds the `repr` of the first 220
characters of the (stripped) text. -/
def extractFailureMsg (text : String) : String :=
  "No valid JSON object found in model response. Raw model output starts with: "
    ++ pyReprStr (pyTake text 220)

/-- `_extract_json` of `src/app.py`, translated statement by
statement; the `repair_json` and `ast.literal_eval` library functions
are passed as oracles (`repair` is `none` when the optional
dependency is absent, as in the source's import fallback). -/
def extractJson (repair : Option (String → Except Unit PyVal))
    (lev : String → Except Unit PyVal) (text0 : String) : Except String PyVal :=
  let text := pyStrip text0
  match jsonLoads text with
  | .ok v => .ok v
  | .error _ =>
    match repairAttempt repair text with
    | some v => .ok v
    | Option.none =>
      let fenced : Option PyVal :=
        match fenceSearch text.data with
        | Option.none => Option.none
        | some cand => (jsonLoads (pyStrip cand)).toOption
      match fenced with
      | some v => .ok v
      | Option.none =>
        let braced : Option PyVal :=
          match text.data.findIdx? (fun c => c = '{') with
          | Option.none => Option.none
          | some start =>
              match braceEnd (text.data.drop start) start 0 with
              | Option.none => Option.none
              | some e =>
                  let cand := String.mk ((text.data.drop start).take (e + 1 - start))
                  match jsonLoads cand with
                  | .ok v => some v
                  | .error _ =>
                      match lev cand with
                      | .ok (PyVal.dict d) => some (PyVal.dict d)
                      | _ => Option.none
        match braced with
        | some v => .ok v
        | Option.none => .error (extractFailureMsg text)

/-- `_parse_model_json` of `src/app.py`: the extractor, then one more
repair attempt on the unstripped text, then the salvager. -/
def parseModelJson (repair : Option (String → Except Unit PyVal))
    (lev : String → Except Unit PyVal) (text : String) : PyVal :=
  match extractJson repair lev text with
  | .ok v => v
  | .error _ =>
    match repairAttempt repair text with
    | some v => v
    | Option.none => PyVal.dict (salvageJsonLike text)

/-! ### The Validator: `_validate_response` -/

/-- The `required_keys` local of `_validate_response` (same seven keys
as `EXPECTED_KEYS`, re-declared in the source). -/
def requiredKeys : List String :=
  ["market_competition", "monetization_potential", "target_users",
   "feature_suggestions", "mvp_plan", "risk_score", "summary"]

def PyVal.isList : PyVal → Bool
  | .list _ => true
  | _ => false

/-- `[str(x).strip() for x in v if str(x).strip()]`.  At both call
sites the argument was just established to be a list, so the default
branch is unreachable there. -/
def cleanListVals : PyVal → List PyVal
  | .list xs =>
      xs.filterMap (fun x =>
        let s := pyStrip (pyStr x)
        if s = "" then Option.none else some (PyVal.str s))
  | _ => []

/-- The first loop of `_validate_response`: for each required key
absent from the payload, insert the type-appropriate default. -/
def fillDefaults (payload : PyDict) (keys : List String) : PyDict :=
  keys.foldl (fun p key =>
    if p.contains key then p
    else PyDict.set p key
      (if listFieldKeys.contains key then PyVal.list [] else PyVal.str "Not provided")) payload

/-- `_validate_response` of `src/app.py` as a function on the dict
contents: fill absent keys with defaults, wrap non-list list fields,
then stringify/trim/drop-empty both list fields. -/
def validateResponse (payload : PyDict) : PyDict :=
  let p₁ := fillDefaults payload requiredKeys
  let p₂ :=
    if (PyDict.getD p₁ "feature_suggestions" PyVal.none).isList then p₁
    else PyDict.set p₁ "feature_suggestions"
      (PyVal.list [PyVal.str (pyStr (PyDict.getD p₁ "feature_suggestions" PyVal.none))])
  let p₃ :=
    if (PyDict.getD p₂ "mvp_plan" PyVal.none).isList then p₂
    else PyDict.set p₂ "mvp_plan"
      (PyVal.list [PyVal.str (pyStr (PyDict.getD p₂ "mvp_plan" PyVal.none))])
  let p₄ := PyDict.set p₃ "feature_suggestions"
    (PyVal.list (cleanListVals (PyDict.getD p₃ "feature_suggestions" PyVal.none)))
  let p₅ := PyDict.set p₄ "mvp_plan"
    (PyVal.list (cleanListVals (PyDict.getD p₄ "mvp_plan" PyVal.none)))
  p₅

/-- `_validate_response` applied to an arbitrary Python value, as the
orchestrator does with whatever `_parse_model_json` returned.  A
non-dict argument raises before the function can complete — a
`TypeError` on the first `payload[key] = …` item assignment (lists,
strings, numbers) or on the `in` membership test (numbers, `None`),
or an `AttributeError` on `payload.get` (strings/lists that happen to
pass the membership loop) — modelled as one failure kind. -/
def validateResponsePy : PyVal → Except Unit PyVal
  | .dict d => .ok (.dict (validateResponse d))
  | _ => .error ()

/-! ### The Orchestrator: `analyze_project_idea` -/

/-- Failures `_call_gemini` can raise: a transport error
(`raise_for_status`, network failure, timeout) or the
`RuntimeError` for an unexpected response shape. -/
inductive UpstreamErr where
  | transport
  | badShape
  deriving DecidableEq, Repr

/-- Failures `analyze_project_idea` can propagate. -/
inductive PyFailure where
  /-- `RuntimeError("Missing GEMINI_API_KEY in environment.")`. -/
  | missingApiKey
  /-- an exception of `_call_gemini`, propagated uncaught. -/
  | upstream (e : UpstreamErr)
  /-- `_validate_response` raised on a non-dict parse result. -/
  | typeErr
  deriving DecidableEq, Repr

def orUnknown (f : String) : String := if f = "" then "unknown" else f

/-- The placeholder dict literal built when both attempts were
unusable (lines 267–280). -/
def fallbackDict (f₁ f₂ : String) : PyDict :=
  [("market_competition", PyVal.str "Not provided"),
   ("monetization_potential", PyVal.str "Not provided"),
   ("target_users", PyVal.str "Not provided"),
   ("feature_suggestions", PyVal.list []),
   ("mvp_plan", PyVal.list []),
   ("risk_score", PyVal.str "Not provided"),
   ("summary", PyVal.str ("The model response was unusable. finishReason(s): "
      ++ orUnknown f₁ ++ ", " ++ orUnknown f₂ ++ "."))]

/-- `analyze_project_idea` of `src/app.py`.  The two upstream calls
are inputs: each is either the `(text, finish_reason)` a normal
`_call_gemini` return provides, or the exception it raised; the
second is examined only when the first attempt parses to a falsy
candidate, as in the source. -/
def analyzeProjectIdea (repair : Option (String → Except Unit PyVal))
    (lev : String → Except Unit PyVal) (apiKey : String)
    (call1 call2 : Except UpstreamErr (String × String)) : Except PyFailure PyVal :=
  if apiKey = "" then .error .missingApiKey
  else
    match call1 with
    | .error e => .error (.upstream e)
    | .ok (text₁, finish₁) =>
      let parsed₁ := parseModelJson repair lev text₁
      if pyTruthy parsed₁ then
        match validateResponsePy parsed₁ with
        | .ok v => .ok v
        | .error _ => .error .typeErr
      else
        match call2 with
        | .error e => .error (.upstream e)
        | .ok (text₂, finish₂) =>
          let parsed₂ := parseModelJson repair lev text₂
          if pyTruthy parsed₂ then
            match validateResponsePy parsed₂ with
            | .ok v => .ok v
            | .error _ => .error .typeErr
          else
            .ok (.dict (validateResponse (fallbackDict finish₁ finish₂)))

/-! ### A heap model for the in-place behaviour of the Validator

`_validate_response` mutates its argument and returns it.  To state
this, dicts live in a heap of objects addressed by index; every
`payload[key] = …` statement becomes an update of the argument's
cell, and the function returns the reference it was given. -/

abbrev Heap := List PyDict

def heapGet (h : Heap) (r : Nat) : PyDict := (h.get? r).getD []

def heapSet (h : Heap) (r : Nat) (d : PyDict) : Heap := h.set r d

/-- `_validate_response` as it executes: statement-by-statement
updates of the argument object `r` in the heap, returning the same
reference. -/
def validateResponseInPlace (h₀ : Heap) (r : Nat) : Heap × Nat :=
  let h₁ := requiredKeys.foldl (fun h key =>
    if (heapGet h r).contains key then h
    else heapSet h r (PyDict.set (heapGet h r) key
      (if listFieldKeys.contains key then PyVal.list [] else PyVal.str "Not provided"))) h₀
  let h₂ :=
    if (PyDict.getD (heapGet h₁ r) "feature_suggestions" PyVal.none).isList then h₁
    else heapSet h₁ r (PyDict.set (heapGet h₁ r) "feature_suggestions"
      (PyVal.list [PyVal.str (pyStr (PyDict.getD (heapGet h₁ r) "feature_suggestions" PyVal.none))]))
  let h₃ :=
    if (PyDict.getD (heapGet h₂ r) "mvp_plan" PyVal.none).isList then h₂
    else heapSet h₂ r (PyDict.set (heapGet h₂ r) "mvp_plan"
      (PyVal.list [PyVal.str (pyStr (PyDict.getD (heapGet h₂ r) "mvp_plan" PyVal.none))]))
  let h₄ := heapSet h₃ r (PyDict.set (heapGet h₃ r) "feature_suggestions"
    (PyVal.list (cleanListVals (PyDict.getD (heapGet h₃ r) "feature_suggestions" PyVal.none))))
  let h₅ := heapSet h₄ r (PyDict.set (heapGet h₄ r) "mvp_plan"
    (PyVal.list (cleanListVals (PyDict.getD (heapGet h₄ r) "mvp_plan" PyVal.none))))
  (h₅, r)

/-! ### Spec-side and claim-side definitions used by the theorems -/

/-- A value is a non-empty already-stripped string. -/
def isCleanStr : PyVal → Bool
  | .str s => decide (s ≠ "") && decide (pyStrip s = s)
  | _ => false

/-- A value is a list of non-empty already-stripped strings. -/
def isCleanStrList : PyVal → Bool
  | .list xs => xs.all isCleanStr
  | _ => false

/-- The filter-map body of `cleanListVals`, named for rewriting. -/
def cleanItem (x : PyVal) : Option PyVal :=
  let s := pyStrip (pyStr x)
  if s = "" then Option.none else some (PyVal.str s)

/-- The type-appropriate default of a required key. -/
def defaultFor (key : String) : PyVal :=
  if listFieldKeys.contains key then PyVal.list [] else PyVal.str "Not provided"

/-- What a list field's value is based on before the final cleaning
pass, per the spec's wording: the payload's value if it is a list, a
one-element list of its string form if present but not a list, and
the empty list if absent. -/
def listSeed (payload : PyDict) (k : String) : PyVal :=
  if payload.contains k then
    if (payload.getD k PyVal.none).isList then payload.getD k PyVal.none
    else PyVal.list [PyVal.str (pyStr (payload.getD k PyVal.none))]
  else PyVal.list []

/-- The spec-side description of a list field of the Validator's
output: the seed above with every element stringified, trimmed, and
dropped when empty. -/
def expectedListField (payload : PyDict) (k : String) : PyVal :=
  PyVal.list (cleanListVals (listSeed payload k))

/-- The claim's output-shape predicate: the mapping holds exactly the
seven required keys. -/
def onlySevenKeys (d : PyDict) : Bool :=
  d.all (fun kv => requiredKeys.contains kv.1) && requiredKeys.all (fun k => d.contains k)

/-- A concrete `ast.literal_eval` oracle that raises on every input —
any oracle would do for the concrete runs below, since the call sites
catch its exceptions. -/
def levAlwaysFails : String → Except Unit PyVal := fun _ => .error ()

/-- The six non-summary fields hold their type-appropriate
defaults. -/
def sixDefaults (d : PyDict) : Bool :=
  decide (PyDict.getD d "market_competition" PyVal.none = PyVal.str "Not provided") &&
  decide (PyDict.getD d "monetization_potential" PyVal.none = PyVal.str "Not provided") &&
  decide (PyDict.getD d "target_users" PyVal.none = PyVal.str "Not provided") &&
  decide (PyDict.getD d "risk_score" PyVal.none = PyVal.str "Not provided") &&
  decide (PyDict.getD d "feature_suggestions" PyVal.none = PyVal.list []) &&
  decide (PyDict.getD d "mvp_plan" PyVal.none = PyVal.list [])

/-- Strategy 1 of the spec: direct parse of the (stripped) text. -/
def directStrategy (text : String) : Option PyVal := (jsonLoads text).toOption

/-- Strategy 2 of the spec: repair, then accept a mapping or parse a
repaired string. -/
def repairStrategy (repair : Option (String → Except Unit PyVal)) (text : String) :
    Option PyVal := repairAttempt repair text

/-- Strategy 3 of the spec: fenced-block search, then parse of the
block's interior. -/
def fenceStrategy (text : String) : Option PyVal :=
  match fenceSearch text.data with
  | some cand => (jsonLoads (pyStrip cand)).toOption
  | Option.none => Option.none

/-- Strategy 4 of the spec: balanced-brace scan, JSON parse of the
region, with the permissive literal-structure parse as the final
attempt inside this strategy. -/
def braceStrategy (lev : String → Except Unit PyVal) (text : String) : Option PyVal :=
  match text.data.findIdx? (fun c => c = '{') with
  | Option.none => Option.none
  | some start =>
      match braceEnd (text.data.drop start) start 0 with
      | Option.none => Option.none
      | some e =>
          let cand := String.mk ((text.data.drop start).take (e + 1 - start))
          match jsonLoads cand with
          | .ok v => some v
          | .error _ =>
              match lev cand with
              | .ok (PyVal.dict d) => some (PyVal.dict d)
              | _ => Option.none

/-- The spec-side extractor: try the four strategies in order on the
stripped text, return the first success, and on total failure signal
the diagnostic embedding the first 220 characters of the stripped
text. -/
def extractJsonChain (repair : Option (String → Except Unit PyVal))
    (lev : String → Except Unit PyVal) (text0 : String) : Except String PyVal :=
  let t := pyStrip text0
  match [directStrategy t, repairStrategy repair t, fenceStrategy t,
         braceStrategy lev t].findSome? id with
  | some v => .ok v
  | Option.none => .error (extractFailureMsg t)

/-- Wrapped-in-a-matching-pair-of-quotes unwrapping, as the claim
words it: a leading quote and a closing quote at the very end. -/
def wrappedCore (ds : List Char) : Option (List Char) :=
  match ds with
  | [] => Option.none
  | c :: rest =>
      if c = '"' then
        if rest ≠ [] ∧ rest.getLast? = some '"' then some rest.dropLast
        else Option.none
      else Option.none

/-- The claim's description of a text-field value: unwrap a single
matching pair of quotes and unescape; otherwise keep the trimmed span
as-is, unmodified. -/
def claimTextValue (raw : String) : String :=
  match wrappedCore raw.data with
  | some g => pyReplace (String.mk g) "\\\"" "\""
  | Option.none => raw

/-- The claim's statement specialized to one input text: every text
field the Salvager recovers equals `claimTextValue` of its trimmed
raw span. -/
def claimC9Holds (text : String) : Bool :=
  (List.range EXPECTED_KEYS.length).all (fun idx =>
    if listFieldKeys.contains (EXPECTED_KEYS.getD idx "") then true
    else match salvageRawFor text.data idx with
      | Option.none => true
      | some raw =>
          raw = "" || decide (PyDict.getD (salvageJsonLike text)
            (EXPECTED_KEYS.getD idx "") PyVal.none = PyVal.str (claimTextValue raw)))

/-- The amended description: unwrap when the span both starts and
ends with a quote; in both branches unescape `\"` and strip
surrounding whitespace. -/
def amendedTextValue (raw : String) : String :=
  let body := match wrappedCore raw.data with
    | some g => String.mk g
    | Option.none => raw
  pyStrip (pyReplace body "\\\"" "\"")

/-- Length of the run of `p`-characters at the head of a list. -/
def runLen (p : Char → Bool) : List Char → Nat
  | [] => 0
  | c :: rest => if p c then runLen p rest + 1 else 0

/-- Length of the whitespace run immediately before position `m`. -/
def backWsRun (cs : List Char) (m : Nat) : Nat :=
  runLen reIsSpace (cs.take m).reverse

/-- The start of the `,?\s*` prefix of a marker at `m`: back off over
the whitespace run before `m` and over one comma if present. -/
def boundaryBack (cs : List Char) (m : Nat) : Nat :=
  let base := m - backWsRun cs m
  if 0 < base ∧ cs[base - 1]? = some ',' then base - 1 else base

/-- The claim's description of the span's end: the start of the
earliest later-key marker occurrence in the remaining text (any later
key, whichever marker comes first in the text), or end of text. -/
def claimSpanEnd (cs : List Char) (idx start : Nat) : Nat :=
  match ((EXPECTED_KEYS.drop (idx + 1)).filterMap
      (fun k => markerSearch k (cs.drop start))).min? with
  | some q => start + q
  | Option.none => cs.length

/-- The claim's statement specialized to one input text: every found
key's span ends where the claim says. -/
def claimC7Holds (text : String) : Bool :=
  (List.range EXPECTED_KEYS.length).all (fun idx =>
    match salvageSpanFor text.data idx with
    | Option.none => true
    | some (s, e) => e = claimSpanEnd text.data idx s)

/-- The amended description of the span's end: for the first key in
declaration order among the later keys whose marker occurs in the
remaining text, the start of that key's first marker occurrence
extended backwards over the immediately preceding whitespace run and
at most one comma; end of text when no later key's marker occurs. -/
def amendedSpanEnd (cs : List Char) (idx start : Nat) : Nat :=
  match (EXPECTED_KEYS.drop (idx + 1)).findSome?
      (fun k => (markerSearch k (cs.drop start)).map
        (fun m => boundaryBack (cs.drop start) m)) with
  | some q => start + q
  | Option.none => cs.length

/-! ## Lemmas about the dict model -/

theorem PyDict.contains_nil (k : String) : PyDict.contains [] k = false := rfl

theorem PyDict.contains_cons (ka : String) (va : PyVal) (rest : PyDict) (k : String) :
    PyDict.contains ((ka, va) :: rest) k = (decide (ka = k) || rest.contains k) := by
  simp [PyDict.contains]

theorem PyDict.getD_nil (k : String) (v₀ : PyVal) : PyDict.getD [] k v₀ = v₀ := rfl

theorem PyDict.getD_cons (ka : String) (va : PyVal) (rest : PyDict) (k : String) (v₀ : PyVal) :
    PyDict.getD ((ka, va) :: rest) k v₀ = if ka = k then va else rest.getD k v₀ := by
  by_cases h : ka = k <;> simp [PyDict.getD, List.find?, h]

theorem PyDict.set_nil (k : String) (v : PyVal) : PyDict.set [] k v = [(k, v)] := rfl

theorem PyDict.set_cons (ka : String) (va : PyVal) (rest : PyDict) (k : String) (v : PyVal) :
    PyDict.set ((ka, va) :: rest) k v
      = if ka = k then (k, v) :: rest else (ka, va) :: rest.set k v := rfl

theorem PyDict.contains_set (d : PyDict) (k k' : String) (v : PyVal) :
    (PyDict.set d k v).contains k' = (d.contains k' || decide (k = k')) := by
  induction d with
  | nil => simp [PyDict.set_nil, PyDict.contains_cons, PyDict.contains_nil, Bool.or_comm]
  | cons a rest ih =>
      obtain ⟨ka, va⟩ := a
      rw [PyDict.set_cons]
      by_cases h : ka = k
      · subst h
        by_cases h' : ka = k' <;>
          simp [PyDict.contains_cons, h', Bool.or_comm, Bool.or_assoc, Bool.or_left_comm]
      · simp only [if_neg h, PyDict.contains_cons, ih, Bool.or_assoc]

theorem PyDict.getD_set_self (d : PyDict) (k : String) (v v₀ : PyVal) :
    (PyDict.set d k v).getD k v₀ = v := by
  induction d with
  | nil => simp [PyDict.set_nil, PyDict.getD_cons]
  | cons a rest ih =>
      obtain ⟨ka, va⟩ := a
      rw [PyDict.set_cons]
      by_cases h : ka = k
      · simp [h, PyDict.getD_cons]
      · simp [h, PyDict.getD_cons, ih]

theorem PyDict.getD_set_ne (d : PyDict) (k k' : String) (v v₀ : PyVal) (h : k ≠ k') :
    (PyDict.set d k v).getD k' v₀ = d.getD k' v₀ := by
  induction d with
  | nil => simp [PyDict.set_nil, PyDict.getD_cons, PyDict.getD_nil, h]
  | cons a rest ih =>
      obtain ⟨ka, va⟩ := a
      rw [PyDict.set_cons]
      by_cases hk : ka = k
      · subst hk
        rw [if_pos rfl, PyDict.getD_cons, PyDict.getD_cons, if_neg h, if_neg h]
      · simp [PyDict.getD_cons, hk, ih]

theorem PyDict.getD_of_not_contains (d : PyDict) (k : String) (v₀ : PyVal)
    (h : d.contains k = false) : d.getD k v₀ = v₀ := by
  induction d with
  | nil => rfl
  | cons a rest ih =>
      obtain ⟨ka, va⟩ := a
      rw [PyDict.contains_cons] at h
      simp only [Bool.or_eq_false_iff, decide_eq_false_iff_not] at h
      simp [PyDict.getD_cons, h.1, ih h.2]

theorem PyDict.set_eq_self (d : PyDict) (k : String) (v : PyVal)
    (hc : d.contains k = true) (hv : d.getD k PyVal.none = v) :
    PyDict.set d k v = d := by
  induction d with
  | nil => simp [PyDict.contains_nil] at hc
  | cons a rest ih =>
      obtain ⟨ka, va⟩ := a
      rw [PyDict.set_cons]
      by_cases h : ka = k
      · subst h
        rw [PyDict.getD_cons, if_pos rfl] at hv
        simp [hv]
      · rw [PyDict.contains_cons] at hc
        simp only [decide_eq_true_eq, Bool.or_eq_true] at hc
        rcases hc with hc | hc
        · exact absurd hc h
        · rw [PyDict.getD_cons, if_neg h] at hv
          simp [h, ih hc hv]

theorem PyDict.keys_all_set (Q : String → Bool) (d : PyDict) (k : String) (v : PyVal)
    (hd : d.all (fun kv => Q kv.1) = true) (hk : Q k = true) :
    (PyDict.set d k v).all (fun kv => Q kv.1) = true := by
  induction d with
  | nil => simp [PyDict.set_nil, hk]
  | cons a rest ih =>
      obtain ⟨ka, va⟩ := a
      simp only [List.all_cons, Bool.and_eq_true] at hd
      rw [PyDict.set_cons]
      by_cases h : ka = k
      · simp [h, hk, hd.2]
      · simp [h, hd.1, ih hd.2]

theorem PyDict.contains_of_mem (d : PyDict) (k : String) (v : PyVal) (h : (k, v) ∈ d) :
    d.contains k = true := by
  induction d with
  | nil => simp at h
  | cons a rest ih =>
      obtain ⟨ka, va⟩ := a
      rw [PyDict.contains_cons]
      rcases List.mem_cons.mp h with h' | h'
      · obtain ⟨rfl, rfl⟩ := Prod.mk.injEq .. ▸ h'
        simp
      · rw [ih h']
        exact Bool.or_true _

/-! ## Lemmas about stripping and list-field cleaning -/

theorem dropWhile_idem (p : Char → Bool) (l : List Char) :
    (l.dropWhile p).dropWhile p = l.dropWhile p := by
  induction l with
  | nil => rfl
  | cons a t ih =>
      by_cases h : p a = true
      · rw [List.dropWhile_cons_of_pos h]
        exact ih
      · rw [List.dropWhile_cons_of_neg h, List.dropWhile_cons_of_neg h]

/-- The stripped list is a prefix of the left-stripped list. -/
theorem stripWhile_append (p : Char → Bool) (l : List Char) :
    l.dropWhile p = stripWhile p l ++ ((l.dropWhile p).reverse.takeWhile p).reverse := by
  set m := l.dropWhile p with hm
  calc m = m.reverse.reverse := (List.reverse_reverse m).symm
  _ = (m.reverse.takeWhile p ++ m.reverse.dropWhile p).reverse := by
        rw [List.takeWhile_append_dropWhile]
  _ = (m.reverse.dropWhile p).reverse ++ (m.reverse.takeWhile p).reverse := by
        rw [List.reverse_append]
  _ = stripWhile p l ++ (m.reverse.takeWhile p).reverse := rfl

theorem stripWhile_head_not (p : Char → Bool) (l : List Char) {a : Char} {t : List Char}
    (h : stripWhile p l = a :: t) : p a = false := by
  have hsplit := stripWhile_append p l
  rw [h] at hsplit
  have hhd := List.head?_dropWhile_not p l
  rw [hsplit] at hhd
  simpa using hhd

theorem stripWhile_idem (p : Char → Bool) (l : List Char) :
    stripWhile p (stripWhile p l) = stripWhile p l := by
  set r := stripWhile p l with hr
  have h1 : r.dropWhile p = r := by
    match hcase : r with
    | [] => rfl
    | a :: t =>
        exact List.dropWhile_cons_of_neg (by simp [stripWhile_head_not p l hcase])
  have h2 : r.reverse.dropWhile p = r.reverse := by
    rw [hr]
    unfold stripWhile
    rw [List.reverse_reverse]
    exact dropWhile_idem p _
  show ((r.dropWhile p).reverse.dropWhile p).reverse = r
  rw [h1, h2, List.reverse_reverse]

theorem pyStrip_idem (s : String) : pyStrip (pyStrip s) = pyStrip s := by
  show String.mk (stripWhile pyIsSpace (stripWhile pyIsSpace s.data)) = _
  rw [stripWhile_idem]
  rfl

theorem stripWhile_getLast_not (p : Char → Bool) (l : List Char) {a : Char}
    (h : (stripWhile p l).getLast? = some a) : p a = false := by
  rw [List.getLast?_eq_head?_reverse] at h
  unfold stripWhile at h
  rw [List.reverse_reverse] at h
  have hhd := List.head?_dropWhile_not p (l.dropWhile p).reverse
  rw [h] at hhd
  exact hhd

theorem cleanListVals_list (xs : List PyVal) :
    cleanListVals (PyVal.list xs) = xs.filterMap cleanItem := rfl

theorem all_isCleanStr_cleanListVals (v : PyVal) :
    (cleanListVals v).all isCleanStr = true := by
  match v with
  | .str _ | .int _ | .float _ | .bool _ | .none | .dict _ => rfl
  | .list xs =>
      rw [cleanListVals_list]
      induction xs with
      | nil => rfl
      | cons x t ih =>
          rw [List.filterMap_cons]
          by_cases h : pyStrip (pyStr x) = ""
          · rw [show cleanItem x = Option.none by simp [cleanItem, h]]
            exact ih
          · rw [show cleanItem x = some (PyVal.str (pyStrip (pyStr x))) by
                simp [cleanItem, h]]
            rw [List.all_cons, Bool.and_eq_true]
            exact ⟨by simp [isCleanStr, h, pyStrip_idem], ih⟩

theorem isCleanStrList_cleanListVals (v : PyVal) :
    isCleanStrList (PyVal.list (cleanListVals v)) = true :=
  all_isCleanStr_cleanListVals v

theorem cleanListVals_of_clean (xs : List PyVal) (h : xs.all isCleanStr = true) :
    cleanListVals (PyVal.list xs) = xs := by
  induction xs with
  | nil => rfl
  | cons x t ih =>
      rw [List.all_cons, Bool.and_eq_true] at h
      obtain ⟨hx, ht⟩ := h
      match x, hx with
      | .str s, hx =>
          simp only [isCleanStr, Bool.and_eq_true, decide_eq_true_eq] at hx
          rw [cleanListVals_list, List.filterMap_cons]
          rw [show cleanItem (PyVal.str s) = some (PyVal.str s) by
                simp [cleanItem, pyStr, hx.2, hx.1]]
          rw [← cleanListVals_list, ih ht]

theorem cleanListVals_idem (v : PyVal) :
    cleanListVals (PyVal.list (cleanListVals v)) = cleanListVals v :=
  cleanListVals_of_clean _ (all_isCleanStr_cleanListVals v)

/-! ## Lemmas about the default-filling loop of the Validator -/

theorem fillDefaults_nil (p : PyDict) : fillDefaults p [] = p := rfl

theorem fillDefaults_cons (p : PyDict) (key : String) (keys : List String) :
    fillDefaults p (key :: keys)
      = fillDefaults (if p.contains key then p else PyDict.set p key (defaultFor key)) keys := by
  by_cases h : p.contains key <;> simp [fillDefaults, defaultFor, h]

theorem contains_fillDefaults (keys : List String) (p : PyDict) (k : String) :
    (fillDefaults p keys).contains k = (p.contains k || decide (k ∈ keys)) := by
  induction keys generalizing p with
  | nil => simp [fillDefaults_nil]
  | cons key rest ih =>
      rw [fillDefaults_cons]
      by_cases h : p.contains key = true
      · rw [if_pos h, ih]
        by_cases hk : k = key
        · subst hk
          simp [h, List.mem_cons]
        · simp [List.mem_cons, hk]
      · rw [if_neg h, ih, PyDict.contains_set]
        simp [List.mem_cons, Bool.or_assoc, eq_comm]

theorem getD_fillDefaults_present (keys : List String) (p : PyDict) (k : String) (v₀ : PyVal)
    (h : p.contains k = true) : (fillDefaults p keys).getD k v₀ = p.getD k v₀ := by
  induction keys generalizing p with
  | nil => rfl
  | cons key rest ih =>
      rw [fillDefaults_cons]
      by_cases hc : p.contains key = true
      · rw [if_pos hc]
        exact ih p h
      · rw [if_neg hc]
        have hk : key ≠ k := fun hkk => hc (hkk ▸ h)
        rw [ih _ (by rw [PyDict.contains_set, h]; rfl), PyDict.getD_set_ne _ _ _ _ _ hk]

theorem getD_fillDefaults_absent (keys : List String) (p : PyDict) (k : String) (v₀ : PyVal)
    (h : p.contains k = false) (hm : k ∈ keys) :
    (fillDefaults p keys).getD k v₀ = defaultFor k := by
  induction keys generalizing p with
  | nil => simp at hm
  | cons key rest ih =>
      rw [fillDefaults_cons]
      by_cases hc : p.contains key = true
      · rw [if_pos hc]
        have hk : k ≠ key := by
          intro hkk
          rw [hkk, hc] at h
          exact Bool.noConfusion h
        exact ih _ h (by rcases List.mem_cons.mp hm with h' | h'; exact absurd h' hk; exact h')
      · rw [if_neg hc]
        by_cases hk : key = k
        · subst hk
          rw [getD_fillDefaults_present _ _ _ _ (by rw [PyDict.contains_set]; simp)]
          exact PyDict.getD_set_self _ _ _ _
        · have hck : (PyDict.set p key (defaultFor key)).contains k = false := by
            rw [PyDict.contains_set, h]
            simp [hk]
          exact ih _ hck (by rcases List.mem_cons.mp hm with h' | h'
                             · exact absurd h'.symm hk
                             · exact h')

theorem fillDefaults_id_of_contains (keys : List String) (p : PyDict)
    (h : ∀ k ∈ keys, p.contains k = true) : fillDefaults p keys = p := by
  induction keys with
  | nil => rfl
  | cons key rest ih =>
      rw [fillDefaults_cons, if_pos (h key (List.mem_cons_self key rest))]
      exact ih (fun k hk => h k (List.mem_cons_of_mem key hk))

theorem fillDefaults_keys_all (Q : String → Bool) (keys : List String) (p : PyDict)
    (hd : p.all (fun kv => Q kv.1) = true) (hk : ∀ k ∈ keys, Q k = true) :
    (fillDefaults p keys).all (fun kv => Q kv.1) = true := by
  induction keys generalizing p with
  | nil => exact hd
  | cons key rest ih =>
      rw [fillDefaults_cons]
      by_cases hc : p.contains key = true
      · rw [if_pos hc]
        exact ih p hd (fun k hm => hk k (List.mem_cons_of_mem key hm))
      · rw [if_neg hc]
        exact ih _ (PyDict.keys_all_set Q p key _ hd (hk key (List.mem_cons_self key rest)))
          (fun k hm => hk k (List.mem_cons_of_mem key hm))

/-! ## Value tracking through the Validator -/

theorem validateResponse_getD_fs (payload : PyDict) :
    (validateResponse payload).getD "feature_suggestions" PyVal.none
      = expectedListField payload "feature_suggestions" := by
  show (PyDict.getD (PyDict.set _ "mvp_plan" _) _ _) = _
  rw [PyDict.getD_set_ne _ _ _ _ _ (by decide), PyDict.getD_set_self]
  set p₁ := fillDefaults payload requiredKeys with hp₁
  set w := PyVal.list [PyVal.str (pyStr (PyDict.getD p₁ "feature_suggestions" PyVal.none))] with hw
  by_cases hL : (PyDict.getD p₁ "feature_suggestions" PyVal.none).isList = true
  · rw [if_pos hL]
    have hgoal : ∀ q : PyDict, PyDict.getD q "feature_suggestions" PyVal.none
        = PyDict.getD p₁ "feature_suggestions" PyVal.none →
        PyVal.list (cleanListVals (PyDict.getD
          (if (PyDict.getD q "mvp_plan" PyVal.none).isList then q
           else PyDict.set q "mvp_plan" (PyVal.list [PyVal.str (pyStr (PyDict.getD q "mvp_plan" PyVal.none))]))
          "feature_suggestions" PyVal.none))
          = expectedListField payload "feature_suggestions" := by
      intro q hq
      have hq' : PyDict.getD
          (if (PyDict.getD q "mvp_plan" PyVal.none).isList then q
           else PyDict.set q "mvp_plan" (PyVal.list [PyVal.str (pyStr (PyDict.getD q "mvp_plan" PyVal.none))]))
          "feature_suggestions" PyVal.none = PyDict.getD p₁ "feature_suggestions" PyVal.none := by
        by_cases hM : (PyDict.getD q "mvp_plan" PyVal.none).isList = true
        · rw [if_pos hM, hq]
        · rw [if_neg hM, PyDict.getD_set_ne _ _ _ _ _ (by decide), hq]
      rw [hq']
      unfold expectedListField listSeed
      by_cases hc : payload.contains "feature_suggestions" = true
      · rw [if_pos hc]
        rw [hp₁, getD_fillDefaults_present _ _ _ _ hc] at hL ⊢
        rw [if_pos hL]
      · rw [if_neg hc]
        rw [hp₁, getD_fillDefaults_absent _ _ _ _ (Bool.not_eq_true _ ▸ hc) (by decide)]
        rfl
    exact hgoal p₁ rfl
  · rw [if_neg hL]
    have hc : payload.contains "feature_suggestions" = true := by
      by_contra hc
      rw [hp₁, getD_fillDefaults_absent _ _ _ _ (Bool.not_eq_true _ ▸ hc) (by decide)] at hL
      exact hL rfl
    have hq' : ∀ q : PyDict, PyDict.getD q "feature_suggestions" PyVal.none = w →
        PyDict.getD
          (if (PyDict.getD q "mvp_plan" PyVal.none).isList then q
           else PyDict.set q "mvp_plan" (PyVal.list [PyVal.str (pyStr (PyDict.getD q "mvp_plan" PyVal.none))]))
          "feature_suggestions" PyVal.none = w := by
      intro q hq
      by_cases hM : (PyDict.getD q "mvp_plan" PyVal.none).isList = true
      · rw [if_pos hM, hq]
      · rw [if_neg hM, PyDict.getD_set_ne _ _ _ _ _ (by decide), hq]
    rw [hq' _ (PyDict.getD_set_self _ _ _ _)]
    unfold expectedListField listSeed
    rw [if_pos hc]
    have hpp : (fillDefaults payload requiredKeys).getD "feature_suggestions" PyVal.none
        = payload.getD "feature_suggestions" PyVal.none :=
      getD_fillDefaults_present _ _ _ _ hc
    rw [hp₁] at hL
    rw [hpp] at hL
    rw [if_neg hL, hw, hp₁, hpp]

theorem validateResponse_getD_mvp (payload : PyDict) :
    (validateResponse payload).getD "mvp_plan" PyVal.none
      = expectedListField payload "mvp_plan" := by
  show (PyDict.getD (PyDict.set _ "mvp_plan" _) _ _) = _
  rw [PyDict.getD_set_self, PyDict.getD_set_ne _ _ _ _ _ (by decide)]
  set p₁ := fillDefaults payload requiredKeys with hp₁
  have h21 : ∀ q : PyDict,
      PyDict.getD
        (if (PyDict.getD q "feature_suggestions" PyVal.none).isList then q
         else PyDict.set q "feature_suggestions"
           (PyVal.list [PyVal.str (pyStr (PyDict.getD q "feature_suggestions" PyVal.none))]))
        "mvp_plan" PyVal.none = PyDict.getD q "mvp_plan" PyVal.none := by
    intro q
    by_cases hF : (PyDict.getD q "feature_suggestions" PyVal.none).isList = true
    · rw [if_pos hF]
    · rw [if_neg hF, PyDict.getD_set_ne _ _ _ _ _ (by decide)]
  rw [h21 p₁]
  by_cases hM : (PyDict.getD p₁ "mvp_plan" PyVal.none).isList = true
  · rw [if_pos hM, h21 p₁]
    unfold expectedListField listSeed
    by_cases hc : payload.contains "mvp_plan" = true
    · have hpp : (fillDefaults payload requiredKeys).getD "mvp_plan" PyVal.none
          = payload.getD "mvp_plan" PyVal.none := getD_fillDefaults_present _ _ _ _ hc
      rw [hp₁] at hM
      rw [hpp] at hM
      rw [if_pos hc, if_pos hM, hp₁, hpp]
    · rw [if_neg hc, hp₁,
        getD_fillDefaults_absent _ _ _ _ (Bool.not_eq_true _ ▸ hc) (by decide)]
      rfl
  · rw [if_neg hM, PyDict.getD_set_self]
    have hc : payload.contains "mvp_plan" = true := by
      by_contra hc
      rw [hp₁, getD_fillDefaults_absent _ _ _ _ (Bool.not_eq_true _ ▸ hc) (by decide)] at hM
      exact hM rfl
    have hpp : (fillDefaults payload requiredKeys).getD "mvp_plan" PyVal.none
        = payload.getD "mvp_plan" PyVal.none := getD_fillDefaults_present _ _ _ _ hc
    unfold expectedListField listSeed
    rw [hp₁] at hM
    rw [hpp] at hM
    rw [if_pos hc, if_neg hM, hp₁, hpp]

theorem validateResponse_getD_text (payload : PyDict) (k : String)
    (hk1 : k ≠ "feature_suggestions") (hk2 : k ≠ "mvp_plan") (hmem : k ∈ requiredKeys) :
    (validateResponse payload).getD k PyVal.none
      = if payload.contains k then payload.getD k PyVal.none else PyVal.str "Not provided" := by
  show (PyDict.getD (PyDict.set _ "mvp_plan" _) _ _) = _
  rw [PyDict.getD_set_ne _ _ _ _ _ (fun h => hk2 h.symm),
    PyDict.getD_set_ne _ _ _ _ _ (fun h => hk1 h.symm)]
  set p₁ := fillDefaults payload requiredKeys with hp₁
  have h2 : ∀ (q : PyDict) (fld : String), fld = "feature_suggestions" ∨ fld = "mvp_plan" →
      PyDict.getD
        (if (PyDict.getD q fld PyVal.none).isList then q
         else PyDict.set q fld (PyVal.list [PyVal.str (pyStr (PyDict.getD q fld PyVal.none))]))
        k PyVal.none = PyDict.getD q k PyVal.none := by
    intro q fld hfld
    have hne : fld ≠ k := by
      rcases hfld with h | h <;> subst h
      · exact Ne.symm hk1
      · exact Ne.symm hk2
    by_cases hF : (PyDict.getD q fld PyVal.none).isList = true
    · rw [if_pos hF]
    · rw [if_neg hF, PyDict.getD_set_ne _ _ _ _ _ hne]
  rw [h2 _ "mvp_plan" (Or.inr rfl), h2 _ "feature_suggestions" (Or.inl rfl)]
  by_cases hc : payload.contains k = true
  · rw [if_pos hc, hp₁, getD_fillDefaults_present _ _ _ _ hc]
  · rw [if_neg hc, hp₁,
      getD_fillDefaults_absent _ _ _ _ (Bool.not_eq_true _ ▸ hc) hmem]
    unfold defaultFor
    rw [if_neg (by
      simp only [listFieldKeys, List.contains_cons, List.contains_nil, Bool.or_false,
        Bool.or_eq_true, beq_iff_eq]
      rintro (h | h)
      · exact hk1 h
      · exact hk2 h)]

/-- Every required key is present in the Validator's output. -/
theorem validateResponse_contains_required (payload : PyDict) (k : String)
    (hmem : k ∈ requiredKeys) : (validateResponse payload).contains k = true := by
  have h1 : (fillDefaults payload requiredKeys).contains k = true := by
    rw [contains_fillDefaults]
    simp [hmem]
  have h2 : ∀ (q : PyDict) (fld : String), q.contains k = true →
      PyDict.contains
        (if (PyDict.getD q fld PyVal.none).isList then q
         else PyDict.set q fld (PyVal.list [PyVal.str (pyStr (PyDict.getD q fld PyVal.none))]))
        k = true := by
    intro q fld hq
    by_cases hF : (PyDict.getD q fld PyVal.none).isList = true
    · rw [if_pos hF]; exact hq
    · rw [if_neg hF, PyDict.contains_set, hq]; rfl
  have step : ∀ (d : PyDict) (fld : String) (v : PyVal), d.contains k = true →
      (PyDict.set d fld v).contains k = true := by
    intro d fld v h
    rw [PyDict.contains_set, h]
    rfl
  exact step _ _ _ (step _ _ _ (h2 _ "mvp_plan" (h2 _ "feature_suggestions" h1)))

/-- Every key of the Validator's output is a required key or a key of
the input. -/
theorem validateResponse_keys_bound (payload : PyDict) :
    (validateResponse payload).all
      (fun kv => requiredKeys.contains kv.1 || payload.contains kv.1) = true := by
  set Q : String → Bool := fun k => requiredKeys.contains k || payload.contains k with hQ
  have hpay : payload.all (fun kv => Q kv.1) = true := by
    rw [List.all_eq_true]
    intro kv hkv
    rw [hQ]
    have := PyDict.contains_of_mem payload kv.1 kv.2 (by simpa using hkv)
    simp [this]
  have hQreq : ∀ k ∈ requiredKeys, Q k = true := by
    intro k hk
    rw [hQ]
    have hck : requiredKeys.contains k = true := List.elem_eq_true_of_mem hk
    show (requiredKeys.contains k || payload.contains k) = true
    rw [hck]
    rfl
  have h1 : (fillDefaults payload requiredKeys).all (fun kv => Q kv.1) = true :=
    fillDefaults_keys_all Q requiredKeys payload hpay hQreq
  have h2 : ∀ (q : PyDict) (fld : String), fld ∈ requiredKeys →
      q.all (fun kv => Q kv.1) = true →
      (if (PyDict.getD q fld PyVal.none).isList then q
       else PyDict.set q fld (PyVal.list [PyVal.str (pyStr (PyDict.getD q fld PyVal.none))])).all
        (fun kv => Q kv.1) = true := by
    intro q fld hfld hq
    by_cases hF : (PyDict.getD q fld PyVal.none).isList = true
    · rw [if_pos hF]; exact hq
    · rw [if_neg hF]
      exact PyDict.keys_all_set Q q fld _ hq (hQreq fld hfld)
  exact PyDict.keys_all_set Q _ "mvp_plan" _
    (PyDict.keys_all_set Q _ "feature_suggestions" _
      (h2 _ "mvp_plan" (by decide) (h2 _ "feature_suggestions" (by decide) h1))
      (hQreq _ (by decide)))
    (hQreq _ (by decide))

/-! ## C1: completeness and shape of the Validator's output -/

/-- C1 (counterexample): the claim says the Validator's output
contains exactly the seven required keys for every input, but a key
outside the schema survives normalization: on `{"extra": "x"}` the
output still carries `"extra"`. -/
theorem validateResponse_not_onlySevenKeys :
    onlySevenKeys (validateResponse [("extra", PyVal.str "x")]) = false := by decide

/-- C1 (amended): for every input mapping, the Validator's output
contains at least the seven required keys with correctly-typed
values: absent text fields are filled with `"Not provided"`, present
text fields pass through unchanged, the two list fields are exactly
the claimed seed (default empty list when absent, a one-element list
of the string form when present but not a list, the list itself
otherwise) with elements stringified, trimmed and dropped when empty;
every output key is a required key or a key of the input — but keys
of the input outside the schema are preserved, not removed. -/
theorem validateResponse_shape (payload : PyDict) :
    (requiredKeys.all (fun k => (validateResponse payload).contains k) = true)
  ∧ ((validateResponse payload).getD "feature_suggestions" PyVal.none
      = expectedListField payload "feature_suggestions")
  ∧ ((validateResponse payload).getD "mvp_plan" PyVal.none
      = expectedListField payload "mvp_plan")
  ∧ (isCleanStrList ((validateResponse payload).getD "feature_suggestions" PyVal.none) = true)
  ∧ (isCleanStrList ((validateResponse payload).getD "mvp_plan" PyVal.none) = true)
  ∧ ((validateResponse payload).getD "market_competition" PyVal.none
      = if payload.contains "market_competition" then
          payload.getD "market_competition" PyVal.none else PyVal.str "Not provided")
  ∧ ((validateResponse payload).getD "monetization_potential" PyVal.none
      = if payload.contains "monetization_potential" then
          payload.getD "monetization_potential" PyVal.none else PyVal.str "Not provided")
  ∧ ((validateResponse payload).getD "target_users" PyVal.none
      = if payload.contains "target_users" then
          payload.getD "target_users" PyVal.none else PyVal.str "Not provided")
  ∧ ((validateResponse payload).getD "risk_score" PyVal.none
      = if payload.contains "risk_score" then
          payload.getD "risk_score" PyVal.none else PyVal.str "Not provided")
  ∧ ((validateResponse payload).getD "summary" PyVal.none
      = if payload.contains "summary" then
          payload.getD "summary" PyVal.none else PyVal.str "Not provided")
  ∧ ((validateResponse payload).all
      (fun kv => requiredKeys.contains kv.1 || payload.contains kv.1) = true) := by
  refine ⟨?_, validateResponse_getD_fs payload, validateResponse_getD_mvp payload,
    ?_, ?_, ?_, ?_, ?_, ?_, ?_, validateResponse_keys_bound payload⟩
  · rw [List.all_eq_true]
    intro k hk
    exact validateResponse_contains_required payload k (by simpa using hk)
  · rw [validateResponse_getD_fs payload]
    exact isCleanStrList_cleanListVals _
  · rw [validateResponse_getD_mvp payload]
    exact isCleanStrList_cleanListVals _
  · exact validateResponse_getD_text payload _ (by decide) (by decide) (by decide)
  · exact validateResponse_getD_text payload _ (by decide) (by decide) (by decide)
  · exact validateResponse_getD_text payload _ (by decide) (by decide) (by decide)
  · exact validateResponse_getD_text payload _ (by decide) (by decide) (by decide)
  · exact validateResponse_getD_text payload _ (by decide) (by decide) (by decide)

/-! ## C5: idempotence of the Validator -/

/-- The Validator fixes any mapping that already has all seven keys
and clean list fields. -/
theorem validateResponse_of_norm (p : PyDict)
    (hreq : ∀ k ∈ requiredKeys, p.contains k = true)
    (ys zs : List PyVal)
    (hy : PyDict.getD p "feature_suggestions" PyVal.none = PyVal.list ys)
    (hyc : ys.all isCleanStr = true)
    (hz : PyDict.getD p "mvp_plan" PyVal.none = PyVal.list zs)
    (hzc : zs.all isCleanStr = true) :
    validateResponse p = p := by
  have e₁ : fillDefaults p requiredKeys = p := fillDefaults_id_of_contains _ _ hreq
  simp only [validateResponse]
  rw [e₁, hy]
  simp only [PyVal.isList, reduceIte]
  rw [hz]
  simp only [reduceIte]
  rw [PyDict.getD_set_ne _ _ _ _ _ (by decide), hz, hy,
    cleanListVals_of_clean ys hyc, cleanListVals_of_clean zs hzc,
    PyDict.set_eq_self p _ _ (hreq _ (by decide)) hy]
  rw [PyDict.set_eq_self p _ _ (hreq _ (by decide)) hz]

/-- C5: the Validator is idempotent — applying it to its own output
yields the identical mapping. -/
theorem validateResponse_idem (payload : PyDict) :
    validateResponse (validateResponse payload) = validateResponse payload := by
  refine validateResponse_of_norm _ (fun k hk => validateResponse_contains_required payload k hk)
    (cleanListVals (listSeed payload "feature_suggestions"))
    (cleanListVals (listSeed payload "mvp_plan"))
    ?_ (all_isCleanStr_cleanListVals _) ?_ (all_isCleanStr_cleanListVals _)
  · exact validateResponse_getD_fs payload
  · exact validateResponse_getD_mvp payload

/-! ## C10: the Validator mutates its argument in place -/

theorem length_heapSet (h : Heap) (r : Nat) (d : PyDict) :
    (heapSet h r d).length = h.length := List.length_set h r d

theorem heapGet_heapSet_self (h : Heap) (r : Nat) (d : PyDict) (hr : r < h.length) :
    heapGet (heapSet h r d) r = d := by
  unfold heapGet heapSet
  rw [List.get?_eq_getElem?, List.getElem?_set_self hr]
  rfl

theorem heapGet_heapSet_ne (h : Heap) (r : Nat) (d : PyDict) (i : Nat) (hi : r ≠ i) :
    heapGet (heapSet h r d) i = heapGet h i := by
  unfold heapGet heapSet
  rw [List.get?_eq_getElem?, List.getElem?_set_ne hi, ← List.get?_eq_getElem?]

theorem heapSet_heapSet (h : Heap) (r : Nat) (d d' : PyDict) :
    heapSet (heapSet h r d) r d' = heapSet h r d' := List.set_set d d' h r

theorem heapSet_self (h : Heap) (r : Nat) : heapSet h r (heapGet h r) = h := by
  induction h generalizing r with
  | nil => rfl
  | cons a t ih =>
      match r with
      | 0 => rfl
      | r + 1 =>
          show a :: heapSet t r (heapGet t r) = a :: t
          rw [ih r]

/-- The heap version of the default-filling loop equals one update of
the argument cell with the pure loop's result. -/
theorem heapFill (keys : List String) (h : Heap) (r : Nat) (hr : r < h.length) :
    keys.foldl (fun h key =>
      if (heapGet h r).contains key then h
      else heapSet h r (PyDict.set (heapGet h r) key
        (if listFieldKeys.contains key then PyVal.list [] else PyVal.str "Not provided"))) h
    = heapSet h r (fillDefaults (heapGet h r) keys) := by
  induction keys generalizing h with
  | nil => rw [List.foldl_nil, fillDefaults_nil, heapSet_self]
  | cons key rest ih =>
      rw [List.foldl_cons, fillDefaults_cons]
      by_cases hc : (heapGet h r).contains key = true
      · rw [if_pos hc, if_pos hc, ih h hr]
      · rw [if_neg hc, if_neg hc]
        have hr' : r < (heapSet h r (PyDict.set (heapGet h r) key
            (if listFieldKeys.contains key then PyVal.list [] else PyVal.str "Not provided"))).length := by
          rw [length_heapSet]; exact hr
        rw [ih _ hr', heapGet_heapSet_self _ _ _ hr, heapSet_heapSet]
        have : PyDict.set (heapGet h r) key
            (if listFieldKeys.contains key then PyVal.list [] else PyVal.str "Not provided")
            = PyDict.set (heapGet h r) key (defaultFor key) := by
          unfold defaultFor
          rfl
        rw [this]

/-- C10: `_validate_response` mutates the argument object in place
and returns the very same reference it was given: the run equals one
update of the argument's heap cell with the pure normalization, and
the returned reference is the argument's. -/
theorem validateResponseInPlace_spec (h : Heap) (r : Nat) (hr : r < h.length) :
    validateResponseInPlace h r = (heapSet h r (validateResponse (heapGet h r)), r) := by
  simp only [validateResponseInPlace, validateResponse]
  rw [heapFill requiredKeys h r hr]
  set d := heapGet h r with hd
  set p₁ := fillDefaults d requiredKeys with hp₁
  simp only [heapGet_heapSet_self h r, heapSet_heapSet, hr]
  by_cases hF : (PyDict.getD p₁ "feature_suggestions" PyVal.none).isList = true
  · rw [if_pos hF, if_pos hF]
    simp only [heapGet_heapSet_self h r, heapSet_heapSet, hr]
    by_cases hM : (PyDict.getD p₁ "mvp_plan" PyVal.none).isList = true
    · rw [if_pos hM, if_pos hM]
      simp only [heapGet_heapSet_self h r, heapSet_heapSet, hr]
    · rw [if_neg hM, if_neg hM]
      simp only [heapGet_heapSet_self h r, heapSet_heapSet, hr]
  · rw [if_neg hF, if_neg hF]
    simp only [heapGet_heapSet_self h r, heapSet_heapSet, hr]
    by_cases hM : (PyDict.getD (PyDict.set p₁ "feature_suggestions"
        (PyVal.list [PyVal.str (pyStr (PyDict.getD p₁ "feature_suggestions" PyVal.none))]))
        "mvp_plan" PyVal.none).isList = true
    · rw [if_pos hM, if_pos hM]
      simp only [heapGet_heapSet_self h r, heapSet_heapSet, hr]
    · rw [if_neg hM, if_neg hM]
      simp only [heapGet_heapSet_self h r, heapSet_heapSet, hr]

/-- Witness for C10 at a concrete heap: one object `{"summary": "ok"}`
at address 0. -/
theorem validateResponseInPlace_spec_witness :
    0 < ([[("summary", PyVal.str "ok")]] : Heap).length
  ∧ validateResponseInPlace [[("summary", PyVal.str "ok")]] 0
      = (heapSet [[("summary", PyVal.str "ok")]] 0
          (validateResponse (heapGet [[("summary", PyVal.str "ok")]] 0)), 0) :=
  ⟨by decide, validateResponseInPlace_spec [[("summary", PyVal.str "ok")]] 0 (by decide)⟩

/-! ## C6: totality of the Salvager -/

theorem salvageSpanFor_none (cs : List Char) (idx : Nat)
    (h : markerSearch (EXPECTED_KEYS.getD idx "") cs = Option.none) :
    salvageSpanFor cs idx = Option.none := by
  simp only [salvageSpanFor]
  rw [h]

theorem salvageValueFor_none (cs : List Char) (idx : Nat)
    (h : markerSearch (EXPECTED_KEYS.getD idx "") cs = Option.none) :
    salvageValueFor cs idx = Option.none := by
  unfold salvageValueFor salvageRawFor
  rw [salvageSpanFor_none cs idx h]

/-- C6: the Salvager is total by construction (it is a function into
`PyDict`); on the empty string it returns the empty mapping, and on
any text containing no key marker it returns the empty mapping. -/
theorem salvageJsonLike_empty :
    salvageJsonLike "" = []
  ∧ ∀ text : String,
      EXPECTED_KEYS.all (fun k => (markerSearch k text.data).isNone) = true →
      salvageJsonLike text = [] := by
  refine ⟨rfl, ?_⟩
  intro text h
  simp only [EXPECTED_KEYS, List.all_cons, List.all_nil, Bool.and_eq_true,
    Option.isNone_iff_eq_none, and_true] at h
  obtain ⟨hm0, hm1, hm2, hm3, hm4, hm5, hm6⟩ := h
  unfold salvageJsonLike
  by_cases ht : text = ""
  · rw [if_pos ht]
  · rw [if_neg ht]
    rw [show List.range EXPECTED_KEYS.length = [0, 1, 2, 3, 4, 5, 6] from rfl]
    simp only [List.foldl_cons, List.foldl_nil,
      salvageValueFor_none text.data 0 hm0,
      salvageValueFor_none text.data 1 hm1,
      salvageValueFor_none text.data 2 hm2,
      salvageValueFor_none text.data 3 hm3,
      salvageValueFor_none text.data 4 hm4,
      salvageValueFor_none text.data 5 hm5,
      salvageValueFor_none text.data 6 hm6]

/-- Witness for C6 at the concrete marker-free text
`"no json here"`. -/
theorem salvageJsonLike_empty_witness :
    EXPECTED_KEYS.all (fun k => (markerSearch k ("no json here" : String).data).isNone) = true
  ∧ salvageJsonLike "no json here" = [] :=
  ⟨by decide, salvageJsonLike_empty.2 "no json here" (by decide)⟩

/-! ## C2: non-object JSON crashes the pipeline (code bug) -/

/-- C2 (code bug): with the credential present and both upstream
calls returning normally, a first response whose text is the valid
JSON `[1, 2]` — a list, not an object — is returned as-is by
`_extract_json` (its direct-parse strategy never checks for a dict),
is truthy, and makes `_validate_response` raise a `TypeError`:
`analyze_project_idea` raises instead of returning a seven-field
result. -/
theorem analyze_typeErr_on_nonobject_json :
    analyzeProjectIdea Option.none levAlwaysFails "key"
      (.ok ("[1, 2]", "STOP")) (.ok ("", ""))
      = .error PyFailure.typeErr := by decide

/-! ## C3: a first-attempt transport error is not absorbed -/

/-- C3 (counterexample): a transport error aborting the first
upstream call propagates to the caller even though the second call
would have returned perfectly parseable text — refuting "surfaced to
the caller only if it also aborts the final attempt".  The second
conjunct shows the very same response text, when it is the first
attempt, yields a successful analysis. -/
theorem analyze_transport_first_attempt_reaches_caller :
    analyzeProjectIdea Option.none levAlwaysFails "key"
      (.error UpstreamErr.transport) (.ok ("\x7b\"summary\": \"ok\"\x7d", "STOP"))
      = .error (PyFailure.upstream UpstreamErr.transport)
  ∧ analyzeProjectIdea Option.none levAlwaysFails "key"
      (.ok ("\x7b\"summary\": \"ok\"\x7d", "STOP")) (.ok ("", ""))
      = .ok (PyVal.dict (validateResponse [("summary", PyVal.str "ok")])) := by decide

/-- C3 (amended): an upstream error (transport or shape) aborting
either attempt — including the first — propagates to the caller; the
retry is triggered only by a falsy parse result, not by a transport
failure. -/
theorem analyze_transport_propagates (repair : Option (String → Except Unit PyVal))
    (lev : String → Except Unit PyVal) (key : String) (e : UpstreamErr)
    (c₂ : Except UpstreamErr (String × String)) (t₁ f₁ : String)
    (hk : key ≠ "")
    (hp : pyTruthy (parseModelJson repair lev t₁) = false) :
    analyzeProjectIdea repair lev key (.error e) c₂ = .error (.upstream e)
  ∧ analyzeProjectIdea repair lev key (.ok (t₁, f₁)) (.error e) = .error (.upstream e) := by
  unfold analyzeProjectIdea
  constructor
  · rw [if_neg hk]
  · rw [if_neg hk]
    simp only [hp, Bool.false_eq_true, if_false]

/-- Witness for C3 (amended) at a concrete run. -/
theorem analyze_transport_propagates_witness :
    (("key" : String) ≠ ""
      ∧ pyTruthy (parseModelJson Option.none levAlwaysFails "hello") = false)
  ∧ (analyzeProjectIdea Option.none levAlwaysFails "key"
        (.error UpstreamErr.transport) (.ok ("x", "y"))
        = .error (.upstream UpstreamErr.transport)
     ∧ analyzeProjectIdea Option.none levAlwaysFails "key"
        (.ok ("hello", "f")) (.error UpstreamErr.transport)
        = .error (.upstream UpstreamErr.transport)) :=
  ⟨⟨by decide, by decide⟩,
    analyze_transport_propagates Option.none levAlwaysFails "key"
      UpstreamErr.transport (.ok ("x", "y")) "hello" "f" (by decide) (by decide)⟩

/-! ## C8: the placeholder path -/

/-- The Validator fixes the placeholder dict: all seven keys are
present and both list fields are already clean empty lists. -/
theorem validateResponse_fallbackDict (f₁ f₂ : String) :
    validateResponse (fallbackDict f₁ f₂) = fallbackDict f₁ f₂ :=
  validateResponse_of_norm _ (fun k hk => by fin_cases hk <;> rfl) [] [] rfl rfl rfl rfl

/-- C8: when both attempts parse to the empty candidate, the
orchestrator returns the placeholder passed through the Validator
(which fixes it); its summary reports both finish reasons with
`"unknown"` substituted for an absent one, and the other six fields
are the type-appropriate defaults. -/
theorem analyze_fallback (repair : Option (String → Except Unit PyVal))
    (lev : String → Except Unit PyVal) (key t₁ f₁ t₂ f₂ : String)
    (hk : key ≠ "")
    (h₁ : parseModelJson repair lev t₁ = PyVal.dict [])
    (h₂ : parseModelJson repair lev t₂ = PyVal.dict []) :
    analyzeProjectIdea repair lev key (.ok (t₁, f₁)) (.ok (t₂, f₂))
      = .ok (PyVal.dict (validateResponse (fallbackDict f₁ f₂)))
  ∧ validateResponse (fallbackDict f₁ f₂) = fallbackDict f₁ f₂
  ∧ PyDict.getD (validateResponse (fallbackDict f₁ f₂)) "summary" PyVal.none
      = PyVal.str ("The model response was unusable. finishReason(s): "
          ++ orUnknown f₁ ++ ", " ++ orUnknown f₂ ++ ".")
  ∧ sixDefaults (validateResponse (fallbackDict f₁ f₂)) = true := by
  refine ⟨?_, validateResponse_fallbackDict f₁ f₂,
    by rw [validateResponse_fallbackDict]; rfl,
    by rw [validateResponse_fallbackDict]; rfl⟩
  unfold analyzeProjectIdea
  rw [if_neg hk]
  simp only [h₁, h₂]
  rfl

/-- Witness for C8 at a concrete run with unusable texts and one
absent finish reason. -/
theorem analyze_fallback_witness :
    (("key" : String) ≠ ""
      ∧ parseModelJson Option.none levAlwaysFails "hello" = PyVal.dict []
      ∧ parseModelJson Option.none levAlwaysFails "world" = PyVal.dict [])
  ∧ (analyzeProjectIdea Option.none levAlwaysFails "key"
        (.ok ("hello", "")) (.ok ("world", "MAX_TOKENS"))
        = .ok (PyVal.dict (validateResponse (fallbackDict "" "MAX_TOKENS")))
     ∧ validateResponse (fallbackDict "" "MAX_TOKENS") = fallbackDict "" "MAX_TOKENS"
     ∧ PyDict.getD (validateResponse (fallbackDict "" "MAX_TOKENS")) "summary" PyVal.none
        = PyVal.str ("The model response was unusable. finishReason(s): "
            ++ orUnknown "" ++ ", " ++ orUnknown "MAX_TOKENS" ++ ".")
     ∧ sixDefaults (validateResponse (fallbackDict "" "MAX_TOKENS")) = true) :=
  ⟨⟨by decide, by decide, by decide⟩,
    analyze_fallback Option.none levAlwaysFails "key" "hello" "" "world" "MAX_TOKENS"
      (by decide) (by decide) (by decide)⟩

/-! ## C4: the Extractor is an ordered four-strategy chain -/

/-- C4: for every input and every behaviour of the two library
oracles, `_extract_json` equals the ordered first-success chain of
its four strategies, and its failure diagnostic is the message
embedding the (repr of the) first 220 characters of the stripped
input. -/
theorem extractJson_eq_chain (repair : Option (String → Except Unit PyVal))
    (lev : String → Except Unit PyVal) (text : String) :
    extractJson repair lev text = extractJsonChain repair lev text := by
  unfold extractJson extractJsonChain
  have tailEq : (match braceStrategy lev (pyStrip text) with
                 | some v => Except.ok v
                 | Option.none => Except.error (extractFailureMsg (pyStrip text)))
      = (match List.findSome? id [braceStrategy lev (pyStrip text)] with
         | some v => Except.ok v
         | Option.none => Except.error (extractFailureMsg (pyStrip text))) := by
    cases hb : braceStrategy lev (pyStrip text) <;> simp [List.findSome?_cons, hb]
  cases h1 : jsonLoads (pyStrip text) with
  | ok v => simp [directStrategy, h1, List.findSome?_cons, Except.toOption]
  | error e =>
      simp only [directStrategy, h1, Except.toOption, List.findSome?_cons, id_eq]
      cases h2 : repairAttempt repair (pyStrip text) with
      | some v => simp [repairStrategy, h2]
      | none =>
          simp only [repairStrategy, h2]
          cases h3 : fenceSearch (pyStrip text).data with
          | none =>
              simp only [fenceStrategy, h3]
              exact tailEq
          | some cand =>
              cases h4 : jsonLoads (pyStrip cand) with
              | ok v => simp [fenceStrategy, h3, h4, Except.toOption]
              | error e2 =>
                  simp only [fenceStrategy, h3, h4, Except.toOption]
                  exact tailEq

/-! ## C9: the Salvager's text-field values -/

/-- The untouched-keys lemma for the salvage fold: indices whose keys
differ from `k` never change the value at `k`. -/
theorem getD_salvageFold_untouched (idxs : List Nat) (cs : List Char) (d : PyDict)
    (k : String) (v₀ : PyVal) (h : ∀ i ∈ idxs, EXPECTED_KEYS.getD i "" ≠ k) :
    PyDict.getD (idxs.foldl (fun result idx =>
      match salvageValueFor cs idx with
      | Option.none => result
      | some v => PyDict.set result (EXPECTED_KEYS.getD idx "") v) d) k v₀
    = PyDict.getD d k v₀ := by
  induction idxs generalizing d with
  | nil => rfl
  | cons i rest ih =>
      rw [List.foldl_cons]
      cases hv : salvageValueFor cs i with
      | none =>
          simp only [hv]
          exact ih _ (fun j hj => h j (List.mem_cons_of_mem i hj))
      | some v =>
          simp only [hv]
          rw [ih _ (fun j hj => h j (List.mem_cons_of_mem i hj)),
            PyDict.getD_set_ne _ _ _ _ _ (h i (List.mem_cons_self i rest))]

/-- The value at a target key after the salvage fold is the target
index's own salvage value (the keys are pairwise distinct). -/
theorem getD_salvageFold (idxs : List Nat) (cs : List Char) (d : PyDict) (target : Nat)
    (v₀ : PyVal) (hmem : target ∈ idxs) (hnodup : idxs.Nodup)
    (hkeys : ∀ i ∈ idxs, i ≠ target → EXPECTED_KEYS.getD i "" ≠ EXPECTED_KEYS.getD target "") :
    PyDict.getD (idxs.foldl (fun result idx =>
      match salvageValueFor cs idx with
      | Option.none => result
      | some v => PyDict.set result (EXPECTED_KEYS.getD idx "") v) d)
      (EXPECTED_KEYS.getD target "") v₀
    = match salvageValueFor cs target with
      | some v => v
      | Option.none => PyDict.getD d (EXPECTED_KEYS.getD target "") v₀ := by
  induction idxs generalizing d with
  | nil => simp at hmem
  | cons i rest ih =>
      rw [List.foldl_cons]
      by_cases hit : i = target
      · subst hit
        have hrest : ∀ j ∈ rest, EXPECTED_KEYS.getD j "" ≠ EXPECTED_KEYS.getD i "" := by
          intro j hj
          have hji : j ≠ i := fun hji => (List.nodup_cons.mp hnodup).1 (hji ▸ hj)
          exact hkeys j (List.mem_cons_of_mem i hj) hji
        cases hv : salvageValueFor cs i with
        | none =>
            simp only [hv]
            rw [getD_salvageFold_untouched rest cs d _ v₀ hrest]
        | some v =>
            simp only [hv]
            rw [getD_salvageFold_untouched rest cs _ _ v₀ hrest, PyDict.getD_set_self]
      · have hmem' : target ∈ rest := by
          rcases List.mem_cons.mp hmem with h | h
          · exact absurd h.symm hit
          · exact h
        have hkeys' : ∀ j ∈ rest, j ≠ target →
            EXPECTED_KEYS.getD j "" ≠ EXPECTED_KEYS.getD target "" :=
          fun j hj => hkeys j (List.mem_cons_of_mem i hj)
        cases hv : salvageValueFor cs i with
        | none =>
            simp only [hv]
            exact ih _ hmem' (List.nodup_cons.mp hnodup).2 hkeys'
        | some v =>
            simp only [hv]
            rw [ih _ hmem' (List.nodup_cons.mp hnodup).2 hkeys',
              PyDict.getD_set_ne _ _ _ _ _ (hkeys i (List.mem_cons_self i rest) hit)]

/-- The mapping the Salvager returns holds, at each key, exactly that
index's salvage value. -/
theorem getD_salvageJsonLike (text : String) (idx : Nat) (hidx : idx < 7)
    (ht : text ≠ "") :
    PyDict.getD (salvageJsonLike text) (EXPECTED_KEYS.getD idx "") PyVal.none
      = match salvageValueFor text.data idx with
        | some v => v
        | Option.none => PyVal.none := by
  unfold salvageJsonLike
  rw [if_neg ht, show List.range EXPECTED_KEYS.length = [0, 1, 2, 3, 4, 5, 6] from rfl]
  rw [getD_salvageFold [0, 1, 2, 3, 4, 5, 6] text.data [] idx PyVal.none
    (by interval_cases idx <;> decide) (by decide)
    (by interval_cases idx <;> decide)]
  cases salvageValueFor text.data idx <;> rfl

/-- C9 (counterexample): on `"summary": "a "` the trimmed span is
`"a "`; the claim's value is `a ` (unwrap only), but the code also
strips the unwrapped value, storing `a`. -/
theorem salvage_text_value_claim_fails :
    claimC9Holds "\"summary\": \"a \"" = false := by decide

theorem getLast?_cons_of_ne (a : Char) (l : List Char) (h : l ≠ []) :
    (a :: l).getLast? = l.getLast? := by
  cases l with
  | nil => exact absurd rfl h
  | cons b t => exact List.getLast?_cons_cons ..

/-- If a drop of a list is a non-empty list, the original's last
element is that list's last element. -/
theorem getLast?_eq_of_drop (l x : List Char) (n : Nat) (hd : l.drop n = x) (hx : x ≠ []) :
    l.getLast? = x.getLast? := by
  induction l generalizing n with
  | nil =>
      rw [List.drop_nil] at hd
      exact absurd hd.symm hx
  | cons a t ih =>
      match n with
      | 0 =>
          rw [← hd, List.drop_zero]
      | n + 1 =>
          rw [List.drop_succ_cons] at hd
          rw [← ih n hd]
          have ht : t ≠ [] := by
            intro h
            rw [h, List.drop_nil] at hd
            exact hx hd.symm
          exact getLast?_cons_of_ne a t ht

/-- On spans that do not end in whitespace — all trimmed raw spans —
the regex capture equals the claim-style quote unwrapping (the
`$`-before-trailing-newline case needs a final newline, which a
stripped span cannot have). -/
theorem quotedCore_eq_wrappedCore (ds : List Char)
    (hlast : ∀ a, ds.getLast? = some a → pyIsSpace a = false) :
    quotedCore ds = wrappedCore ds := by
  cases ds with
  | nil => rfl
  | cons c rest =>
      simp only [quotedCore, wrappedCore]
      by_cases hc : c = '"'
      · rw [if_pos hc, if_pos hc]
        by_cases hq : rest ≠ [] ∧ rest.getLast? = some '"'
        · rw [if_pos hq, if_pos hq]
        · rw [if_neg hq, if_neg hq]
          by_cases hn : rest.length ≥ 2 ∧ rest.drop (rest.length - 2) = ['"', '\n']
          · exfalso
            have h1 : rest.getLast? = some '\n' := by
              rw [getLast?_eq_of_drop rest ['"', '\n'] (rest.length - 2) hn.2 (by simp)]
              rfl
            have hrne : rest ≠ [] := by
              intro h
              rw [h] at h1
              exact Option.noConfusion h1
            have h2 : (c :: rest).getLast? = some '\n' := by
              rw [getLast?_cons_of_ne c rest hrne]
              exact h1
            exact Bool.noConfusion (hlast '\n' h2)
          · rw [if_neg hn]
      · rw [if_neg hc, if_neg hc]

/-- The code's text-field computation equals the amended description
on spans that do not end in whitespace. -/
theorem salvageTextValue_eq_amended (raw : String)
    (hlast : ∀ a, raw.data.getLast? = some a → pyIsSpace a = false) :
    salvageTextValue raw = amendedTextValue raw := by
  unfold salvageTextValue amendedTextValue
  rw [quotedCore_eq_wrappedCore raw.data hlast]

/-- C9 (amended): for each text field the Salvager stores, from the
trimmed raw span, the span unwrapped when it both starts and ends
with a double quote, with escaped double quotes unescaped and
surrounding whitespace stripped in either branch. -/
theorem salvage_text_field_amended (text : String) (idx : Nat) (raw : String)
    (hidx : idx < 7) (ht : text ≠ "")
    (hfld : listFieldKeys.contains (EXPECTED_KEYS.getD idx "") = false)
    (hraw : salvageRawFor text.data idx = some raw)
    (hne : raw ≠ "") :
    PyDict.getD (salvageJsonLike text) (EXPECTED_KEYS.getD idx "") PyVal.none
      = PyVal.str (amendedTextValue raw) := by
  have hws : ∀ a, raw.data.getLast? = some a → pyIsSpace a = false := by
    intro a ha
    unfold salvageRawFor at hraw
    cases hsp : salvageSpanFor text.data idx with
    | none =>
        rw [hsp] at hraw
        exact Option.noConfusion hraw
    | some se =>
        obtain ⟨s, e⟩ := se
        rw [hsp] at hraw
        have hre : pyStrip (pyRStripSet [',']
            (pyStrip (String.mk ((text.data.drop s).take (e - s))))) = raw := by
          injection hraw
        rw [← hre] at ha
        exact stripWhile_getLast_not pyIsSpace _ ha
  have hval : salvageValueFor text.data idx = some (PyVal.str (salvageTextValue raw)) := by
    unfold salvageValueFor
    rw [hraw]
    simp only [if_neg hne]
    rw [if_neg (by
      intro h
      rw [hfld] at h
      exact Bool.noConfusion h)]
  rw [getD_salvageJsonLike text idx hidx ht, hval,
    salvageTextValue_eq_amended raw hws]

/-- Witness for C9 (amended) at the concrete text
`"summary": "ok"`. -/
theorem salvage_text_field_amended_witness :
    (6 < 7 ∧ ("\"summary\": \"ok\"" : String) ≠ ""
      ∧ listFieldKeys.contains (EXPECTED_KEYS.getD 6 "") = false
      ∧ salvageRawFor ("\"summary\": \"ok\"" : String).data 6 = some "\"ok\""
      ∧ ("\"ok\"" : String) ≠ "")
  ∧ PyDict.getD (salvageJsonLike "\"summary\": \"ok\"") (EXPECTED_KEYS.getD 6 "") PyVal.none
      = PyVal.str (amendedTextValue "\"ok\"") :=
  ⟨⟨by decide, by decide, by decide, by decide, by decide⟩,
    salvage_text_field_amended "\"summary\": \"ok\"" 6 "\"ok\""
      (by decide) (by decide) (by decide) (by decide) (by decide)⟩

/-! ## C7: the Salvager's span boundaries -/

/-- C7 (counterexample): in
`"feature_suggestions": 1, "risk_score": 2, "mvp_plan": 3` the
`feature_suggestions` span is bounded by `mvp_plan` — the first later
key in declaration order — even though `risk_score`'s marker comes
first in the text, and the span ends before that marker's
comma/whitespace prefix; the claim's earliest-marker-start rule gives
a different end. -/
theorem salvageSpan_claim_fails :
    claimC7Holds "\"feature_suggestions\": 1, \"risk_score\": 2, \"mvp_plan\": 3"
      = false := by decide

theorem findFirst_eq_some_iff (p : Nat → Bool) (n s t : Nat) :
    findFirst p n s = some t
      ↔ (s ≤ t ∧ t < s + n ∧ p t = true ∧ ∀ i, s ≤ i → i < t → p i = false) := by
  induction n generalizing s with
  | zero =>
      simp only [findFirst]
      constructor
      · intro h
        exact Option.noConfusion h
      · rintro ⟨h1, h2, _, _⟩
        omega
  | succ n ih =>
      simp only [findFirst]
      by_cases hp : p s = true
      · rw [if_pos hp]
        constructor
        · rintro h
          obtain rfl : s = t := by
            injection h
          exact ⟨le_refl s, by omega, hp, fun i h1 h2 => absurd (lt_of_le_of_lt h1 h2) (lt_irrefl s)⟩
        · rintro ⟨h1, h2, h3, h4⟩
          rcases Nat.eq_or_lt_of_le h1 with rfl | hlt
          · rfl
          · exact absurd hp (by rw [h4 s (le_refl s) hlt]; exact Bool.noConfusion)
      · rw [if_neg hp]
        rw [ih (s + 1)]
        constructor
        · rintro ⟨h1, h2, h3, h4⟩
          refine ⟨by omega, by omega, h3, ?_⟩
          intro i hi1 hi2
          rcases Nat.eq_or_lt_of_le hi1 with rfl | hlt
          · exact Bool.not_eq_true _ ▸ (by simpa using hp)
          · exact h4 i hlt hi2
        · rintro ⟨h1, h2, h3, h4⟩
          have hst : s ≠ t := by
            rintro rfl
            exact hp h3
          refine ⟨by omega, by omega, h3, fun i hi1 hi2 => h4 i (by omega) hi2⟩

theorem findFirst_eq_none_iff (p : Nat → Bool) (n s : Nat) :
    findFirst p n s = Option.none ↔ ∀ i, s ≤ i → i < s + n → p i = false := by
  induction n generalizing s with
  | zero =>
      simp only [findFirst]
      constructor
      · intro _ i h1 h2
        omega
      · intro _
        trivial
  | succ n ih =>
      simp only [findFirst]
      by_cases hp : p s = true
      · rw [if_pos hp]
        constructor
        · intro h
          exact Option.noConfusion h
        · intro h
          exact absurd hp (by rw [h s (le_refl s) (by omega)]; exact Bool.noConfusion)
      · rw [if_neg hp]
        rw [ih (s + 1)]
        constructor
        · intro h i h1 h2
          rcases Nat.eq_or_lt_of_le h1 with rfl | hlt
          · exact Bool.not_eq_true _ ▸ (by simpa using hp)
          · exact h i hlt (by omega)
        · intro h i h1 h2
          exact h i (by omega) (by omega)

theorem runLen_lt (p : Char → Bool) (l : List Char) (j : Nat) (h : j < runLen p l) :
    ∃ c, l[j]? = some c ∧ p c = true := by
  induction l generalizing j with
  | nil => simp [runLen] at h
  | cons a t ih =>
      unfold runLen at h
      by_cases hp : p a = true
      · rw [if_pos hp] at h
        match j with
        | 0 => exact ⟨a, by simp, hp⟩
        | j + 1 =>
            obtain ⟨c, hc1, hc2⟩ := ih j (by omega)
            exact ⟨c, by simpa using hc1, hc2⟩
      · rw [if_neg hp] at h
        omega

theorem runLen_at (p : Char → Bool) (l : List Char) (c : Char)
    (h : l[runLen p l]? = some c) : p c = false := by
  induction l with
  | nil => simp at h
  | cons a t ih =>
      unfold runLen at h
      by_cases hp : p a = true
      · rw [if_pos hp] at h
        exact ih (by simpa using h)
      · rw [if_neg hp] at h
        simp at h
        rw [← h]
        exact Bool.not_eq_true _ ▸ (by simpa using hp)

theorem runLen_ge (p : Char → Bool) (l : List Char) (k : Nat)
    (h : ∀ j, j < k → ∃ c, l[j]? = some c ∧ p c = true) : k ≤ runLen p l := by
  induction l generalizing k with
  | nil =>
      match k with
      | 0 => exact Nat.zero_le _
      | k + 1 =>
          obtain ⟨c, hc, _⟩ := h 0 (by omega)
          simp at hc
  | cons a t ih =>
      match k with
      | 0 => exact Nat.zero_le _
      | k + 1 =>
          obtain ⟨c, hc, hpc⟩ := h 0 (by omega)
          simp at hc
          unfold runLen
          rw [if_pos (hc ▸ hpc)]
          have : k ≤ runLen p t := by
            apply ih
            intro j hj
            obtain ⟨c', hc', hpc'⟩ := h (j + 1) (by omega)
            exact ⟨c', by simpa using hc', hpc'⟩
          omega

theorem runLen_le_length (p : Char → Bool) (l : List Char) : runLen p l ≤ l.length := by
  induction l with
  | nil => exact Nat.le_refl 0
  | cons a t ih =>
      unfold runLen
      by_cases hp : p a = true
      · rw [if_pos hp]
        simpa using ih
      · rw [if_neg hp]
        exact Nat.zero_le _

theorem takeWhile_length_eq_runLen (p : Char → Bool) (l : List Char) :
    (l.takeWhile p).length = runLen p l := by
  induction l with
  | nil => rfl
  | cons a t ih =>
      unfold runLen
      by_cases hp : p a = true
      · rw [List.takeWhile_cons_of_pos hp, if_pos hp, List.length_cons, ih]
      · rw [List.takeWhile_cons_of_neg hp, if_neg hp]
        rfl

theorem wsRunAt_eq_runLen (cs : List Char) (i : Nat) :
    wsRunAt cs i = runLen reIsSpace (cs.drop i) :=
  takeWhile_length_eq_runLen reIsSpace (cs.drop i)

/-- A marker match starts on the opening quote of the key. -/
theorem markerMatchAt_head (key : String) (cs : List Char) (p : Nat)
    (h : markerMatchAt key cs p = true) : cs[p]? = some '"' := by
  unfold markerMatchAt at h
  rw [Bool.and_eq_true] at h
  have h1 := h.1
  rw [List.isPrefixOf_iff_prefix, List.prefix_iff_eq_append] at h1
  have hh : (cs.drop p).head? = some '"' := by
    rw [← h1]
    rfl
  rw [List.head?_drop] at hh
  exact hh

/-- The whitespace run at `base` runs exactly to a quote at `m`. -/
theorem wsRunAt_eq_sub (cs : List Char) (base m : Nat) (hbm : base ≤ m)
    (hws : ∀ j, base ≤ j → j < m → ∃ c, cs[j]? = some c ∧ reIsSpace c = true)
    (hquote : cs[m]? = some '"') : wsRunAt cs base = m - base := by
  rw [wsRunAt_eq_runLen]
  apply Nat.le_antisymm
  · by_contra hgt
    have h1 := runLen_lt reIsSpace (cs.drop base) (m - base) (by omega)
    rw [List.getElem?_drop] at h1
    obtain ⟨c, hc, hpc⟩ := h1
    rw [show base + (m - base) = m by omega, hquote] at hc
    obtain rfl : '"' = c := by injection hc
    exact Bool.noConfusion ((show reIsSpace '"' = false by decide) ▸ hpc)
  · apply runLen_ge
    intro j hj
    obtain ⟨c, hc, hpc⟩ := hws (base + j) (by omega) (by omega)
    exact ⟨c, by rw [List.getElem?_drop]; exact hc, hpc⟩

/-- The characters inside the back run before `m` are whitespace. -/
theorem backWsRun_ws (cs : List Char) (m : Nat) (hm : m ≤ cs.length) (j : Nat)
    (h1 : m - backWsRun cs m ≤ j) (h2 : j < m) :
    ∃ c, cs[j]? = some c ∧ reIsSpace c = true := by
  have hbw : backWsRun cs m = runLen reIsSpace (cs.take m).reverse := rfl
  have hlent : (cs.take m).length = m := by
    rw [List.length_take]
    omega
  have hlenr : (cs.take m).reverse.length = m := by
    rw [List.length_reverse, hlent]
  rw [hbw] at h1
  obtain ⟨c, hc, hpc⟩ := runLen_lt reIsSpace (cs.take m).reverse (m - 1 - j) (by omega)
  rw [List.getElem?_reverse (by rw [hlent]; omega)] at hc
  rw [hlent, show m - 1 - (m - 1 - j) = j by omega] at hc
  rw [List.getElem?_take, if_pos h2] at hc
  exact ⟨c, hc, hpc⟩

/-- The character right before the back run is not whitespace. -/
theorem backWsRun_stop (cs : List Char) (m : Nat) (hm : m ≤ cs.length)
    (hlt : backWsRun cs m < m) (c : Char)
    (hc : cs[m - backWsRun cs m - 1]? = some c) : reIsSpace c = false := by
  have hbw : backWsRun cs m = runLen reIsSpace (cs.take m).reverse := rfl
  have hlent : (cs.take m).length = m := by
    rw [List.length_take]
    omega
  have hlenr : (cs.take m).reverse.length = m := by
    rw [List.length_reverse, hlent]
  apply runLen_at reIsSpace (cs.take m).reverse
  rw [← hbw]
  rw [List.getElem?_reverse (by rw [hlent]; omega)]
  rw [hlent, show m - 1 - backWsRun cs m = m - backWsRun cs m - 1 by omega]
  rw [List.getElem?_take, if_pos (by omega)]
  exact hc

theorem backWsRun_le (cs : List Char) (m : Nat) (hm : m ≤ cs.length) :
    backWsRun cs m ≤ m := by
  have := runLen_le_length reIsSpace (cs.take m).reverse
  rw [List.length_reverse, List.length_take] at this
  unfold backWsRun
  omega

/-- The boundary pattern matches at the backed-off position of a
marker match. -/
theorem boundaryMatchAt_backoff (key : String) (cs : List Char) (m : Nat)
    (hm : markerMatchAt key cs m = true) :
    boundaryMatchAt key cs (boundaryBack cs m) = true := by
  have hq : cs[m]? = some '"' := markerMatchAt_head key cs m hm
  have hmlen : m < cs.length := by
    obtain ⟨hlt, _⟩ := List.getElem?_eq_some.mp hq
    exact hlt
  have hrle : backWsRun cs m ≤ m := backWsRun_le cs m (by omega)
  have hws : ∀ j, m - backWsRun cs m ≤ j → j < m →
      ∃ c, cs[j]? = some c ∧ reIsSpace c = true :=
    backWsRun_ws cs m (by omega)
  have hbase : wsRunAt cs (m - backWsRun cs m) = m - (m - backWsRun cs m) :=
    wsRunAt_eq_sub cs _ m (by omega) (fun j h1 h2 => hws j h1 h2) hq
  unfold boundaryBack boundaryMatchAt
  by_cases hcomma : 0 < m - backWsRun cs m ∧ cs[m - backWsRun cs m - 1]? = some ','
  · rw [if_pos hcomma]
    apply Bool.or_eq_true_iff.mpr
    left
    rw [Bool.and_eq_true]
    constructor
    · rw [show m - backWsRun cs m - 1 = m - backWsRun cs m - 1 from rfl]
      exact decide_eq_true hcomma.2
    · rw [show m - backWsRun cs m - 1 + 1 = m - backWsRun cs m by omega, hbase,
        show m - backWsRun cs m + (m - (m - backWsRun cs m)) = m by omega]
      exact hm
  · rw [if_neg hcomma]
    apply Bool.or_eq_true_iff.mpr
    right
    rw [hbase, show m - backWsRun cs m + (m - (m - backWsRun cs m)) = m by omega]
    exact hm

/-- No boundary match starts before the backed-off position of the
first marker match. -/
theorem boundaryMatchAt_min (key : String) (cs : List Char) (m : Nat)
    (hm : markerMatchAt key cs m = true)
    (hmin : ∀ p, p < m → markerMatchAt key cs p = false)
    (q : Nat) (hq : q < boundaryBack cs m) :
    boundaryMatchAt key cs q = false := by
  have hqt : cs[m]? = some '"' := markerMatchAt_head key cs m hm
  have hmlen : m < cs.length := by
    obtain ⟨hlt, _⟩ := List.getElem?_eq_some.mp hqt
    exact hlt
  have hrle : backWsRun cs m ≤ m := backWsRun_le cs m (by omega)
  have hws := backWsRun_ws cs m (le_of_lt hmlen)
  have hbackoff_le : boundaryBack cs m ≤ m - backWsRun cs m := by
    unfold boundaryBack
    by_cases hcomma : 0 < m - backWsRun cs m ∧ cs[m - backWsRun cs m - 1]? = some ','
    · rw [if_pos hcomma]; omega
    · rw [if_neg hcomma]
  -- a run of whitespace starting at a position within the text and
  -- landing the marker at or beyond m forces a contradiction
  have runArgue : ∀ s, s ≤ m - backWsRun cs m - (if 0 < m - backWsRun cs m ∧
      cs[m - backWsRun cs m - 1]? = some ',' then 1 else 0) → False → True := fun _ _ _ => trivial
  rw [Bool.eq_false_iff]
  intro hb
  unfold boundaryMatchAt at hb
  rw [Bool.or_eq_true_iff] at hb
  rcases hb with hb | hb
  · rw [Bool.and_eq_true, decide_eq_true_eq] at hb
    obtain ⟨hcq, hmk⟩ := hb
    set w := wsRunAt cs (q + 1) with hw
    have hrun : ∀ j, j < w → ∃ c, cs[q + 1 + j]? = some c ∧ reIsSpace c = true := by
      intro j hj
      rw [hw, wsRunAt_eq_runLen] at hj
      obtain ⟨c, hc, hpc⟩ := runLen_lt reIsSpace (cs.drop (q + 1)) j hj
      rw [List.getElem?_drop] at hc
      exact ⟨c, hc, hpc⟩
    have hple : ¬ (q + 1 + w < m) := fun hlt => by
      rw [hmin _ hlt] at hmk
      exact Bool.noConfusion hmk
    by_cases hpm : q + 1 + w = m
    · -- the run covers [q+1, m); position m - backWsRun - 1 lies inside it
      have hcover : ∀ j, q + 1 ≤ j → j < m → ∃ c, cs[j]? = some c ∧ reIsSpace c = true := by
        intro j h1 h2
        obtain ⟨c, hc, hpc⟩ := hrun (j - (q + 1)) (by omega)
        rw [show q + 1 + (j - (q + 1)) = j by omega] at hc
        exact ⟨c, hc, hpc⟩
      by_cases hq1 : q + 1 ≤ m - backWsRun cs m - 1
      · -- the non-whitespace stop character would be whitespace
        have hstop_lt : backWsRun cs m < m := by omega
        obtain ⟨c, hc, hpc⟩ := hcover (m - backWsRun cs m - 1) hq1 (by omega)
        rw [backWsRun_stop cs m (le_of_lt hmlen) hstop_lt c hc] at hpc
        exact Bool.noConfusion hpc
      · -- q + 1 = m - backWsRun: the comma at q makes the backoff smaller
        have hq1' : q + 1 = m - backWsRun cs m := by omega
        have : boundaryBack cs m = q := by
          unfold boundaryBack
          rw [if_pos ⟨by omega, by rw [show m - backWsRun cs m - 1 = q by omega]; exact hcq⟩]
          omega
        omega
    · -- the run would cover the quote at m
      have hmlt : m < q + 1 + w := by omega
      have hqm : q + 1 ≤ m := by omega
      obtain ⟨c, hc, hpc⟩ := hrun (m - (q + 1)) (by omega)
      rw [show q + 1 + (m - (q + 1)) = m by omega, hqt] at hc
      obtain rfl : '"' = c := by injection hc
      exact Bool.noConfusion ((show reIsSpace '"' = false by decide) ▸ hpc)
  · set w := wsRunAt cs q with hw
    have hrun : ∀ j, j < w → ∃ c, cs[q + j]? = some c ∧ reIsSpace c = true := by
      intro j hj
      rw [hw, wsRunAt_eq_runLen] at hj
      obtain ⟨c, hc, hpc⟩ := runLen_lt reIsSpace (cs.drop q) j hj
      rw [List.getElem?_drop] at hc
      exact ⟨c, hc, hpc⟩
    have hple : ¬ (q + w < m) := fun hlt => by
      rw [hmin _ hlt] at hb
      exact Bool.noConfusion hb
    by_cases hpm : q + w = m
    · have hcover : ∀ j, q ≤ j → j < m → ∃ c, cs[j]? = some c ∧ reIsSpace c = true := by
        intro j h1 h2
        obtain ⟨c, hc, hpc⟩ := hrun (j - q) (by omega)
        rw [show q + (j - q) = j by omega] at hc
        exact ⟨c, hc, hpc⟩
      have hqlt : q < m - backWsRun cs m := by omega
      have hstop_lt : backWsRun cs m < m := by omega
      obtain ⟨c, hc, hpc⟩ := hcover (m - backWsRun cs m - 1) (by omega) (by omega)
      rw [backWsRun_stop cs m (le_of_lt hmlen) hstop_lt c hc] at hpc
      exact Bool.noConfusion hpc
    · have hqm : q ≤ m := by omega
      obtain ⟨c, hc, hpc⟩ := hrun (m - q) (by omega)
      rw [show q + (m - q) = m by omega, hqt] at hc
      obtain rfl : '"' = c := by injection hc
      exact Bool.noConfusion ((show reIsSpace '"' = false by decide) ▸ hpc)

/-- A marker cannot match beyond the end of the text. -/
theorem markerMatchAt_false_of_ge (key : String) (cs : List Char) (p : Nat)
    (hp : cs.length ≤ p) : markerMatchAt key cs p = false := by
  unfold markerMatchAt
  rw [List.drop_eq_nil_of_le hp]
  rfl

theorem findSome?_congr {α β : Type} (f g : α → Option β) (l : List α)
    (h : ∀ a ∈ l, f a = g a) : l.findSome? f = l.findSome? g := by
  induction l with
  | nil => rfl
  | cons a t ih =>
      rw [List.findSome?_cons, List.findSome?_cons, h a (List.mem_cons_self a t),
        ih (fun b hb => h b (List.mem_cons_of_mem a hb))]

/-- The leftmost match of the boundary pattern `,?\s*"key"\s*:` is
the leftmost marker match backed off over its comma/whitespace
run. -/
theorem boundarySearch_eq (key : String) (rest : List Char) :
    boundarySearch key rest = (markerSearch key rest).map (fun m => boundaryBack rest m) := by
  cases hms : markerSearch key rest with
  | none =>
      have hall : ∀ p, markerMatchAt key rest p = false := by
        intro p
        by_cases hp : p < rest.length + 1
        · exact (findFirst_eq_none_iff _ _ _).mp hms p (Nat.zero_le p) (by omega)
        · exact markerMatchAt_false_of_ge key rest p (by omega)
      show findFirst (fun i => boundaryMatchAt key rest i) (rest.length + 1) 0 = Option.none
      apply (findFirst_eq_none_iff _ _ _).mpr
      intro i _ _
      unfold boundaryMatchAt
      rw [hall (i + 1 + wsRunAt rest (i + 1)), hall (i + wsRunAt rest i),
        Bool.and_false, Bool.or_false]
  | some m =>
      obtain ⟨-, hmlt, hmk, hmin⟩ := (findFirst_eq_some_iff _ _ _ _).mp hms
      have hmin' : ∀ p, p < m → markerMatchAt key rest p = false :=
        fun p hp => hmin p (Nat.zero_le p) hp
      have hback_le : boundaryBack rest m ≤ m := by
        have hmlen : m < rest.length := by
          obtain ⟨hlt, _⟩ := List.getElem?_eq_some.mp (markerMatchAt_head key rest m hmk)
          exact hlt
        have := backWsRun_le rest m (le_of_lt hmlen)
        unfold boundaryBack
        by_cases hcomma : 0 < m - backWsRun rest m ∧ rest[m - backWsRun rest m - 1]? = some ','
        · rw [if_pos hcomma]; omega
        · rw [if_neg hcomma]; omega
      show findFirst (fun i => boundaryMatchAt key rest i) (rest.length + 1) 0
        = some (boundaryBack rest m)
      apply (findFirst_eq_some_iff _ _ _ _).mpr
      refine ⟨Nat.zero_le _, by omega, boundaryMatchAt_backoff key rest m hmk, ?_⟩
      intro i _ hi
      exact boundaryMatchAt_min key rest m hmk hmin' i hi

/-- C7 (amended): a found key's raw value span starts right after the
key's marker and ends, for the first key in declaration order among
the later keys whose marker occurs in the remaining text, at the
start of that key's first marker occurrence extended backwards over
the immediately preceding whitespace and at most one comma; keys
declared before the current one never bound the span, and the span
runs to end of text when no later key's marker occurs. -/
theorem salvageSpanFor_amended (cs : List Char) (idx s e : Nat)
    (h : salvageSpanFor cs idx = some (s, e)) : e = amendedSpanEnd cs idx s := by
  simp only [salvageSpanFor] at h
  cases hms : markerSearch (EXPECTED_KEYS.getD idx "") cs with
  | none =>
      rw [hms] at h
      exact Option.noConfusion h
  | some m =>
      rw [hms] at h
      rw [Option.some.injEq, Prod.mk.injEq] at h
      obtain ⟨hs, he⟩ := h
      subst hs
      subst he
      unfold amendedSpanEnd
      rw [findSome?_congr _ (fun k => boundarySearch k
            (cs.drop (markerEndAt (EXPECTED_KEYS.getD idx "") cs m)))
          _ (fun k _ => (boundarySearch_eq k _).symm)]

/-- Witness for C7 (amended) at the concrete text
`"risk_score": "low", "summary": "ok"`: the `risk_score` span ends at
the comma/whitespace run preceding the `summary` marker. -/
theorem salvageSpanFor_amended_witness :
    salvageSpanFor ("\"risk_score\": \"low\", \"summary\": \"ok\"" : String).data 5
      = some (13, 19)
  ∧ 19 = amendedSpanEnd ("\"risk_score\": \"low\", \"summary\": \"ok\"" : String).data 5 13 :=
  ⟨by decide,
    salvageSpanFor_amended ("\"risk_score\": \"low\", \"summary\": \"ok\"" : String).data
      5 13 19 (by decide)⟩

end DPV
